import Mathlib

/-!
# cluster_PETs: a shallow embedding of `src/cluster_PETs.cpp`

The program reads paired-end tags (PETs), sorts them, preprocesses every record
(validity, self-ligation and support filters, then symmetric extension), merges
overlapping records in place, and writes the records whose count reaches the
cluster cutoff.

Conventions of the embedding:

* the vector `pets` is a `List PET`; `pets[i]` is `pets[i]?` and an assignment
  through the reference `PET &x = pets[i]` is `pets.set i _`;
* the stages are described twice. The first description (`preprocess`, `cluster`,
  `select`, `run`) computes on mathematical integers (`Int`) and builds rows of any
  length: it is the program on the runs in which no `int` overflows and every row fits
  the array `buff`. The second description (`preprocess32`, `cluster32`, `select32`,
  `run32`) reduces every `int` sum and difference to 32 bits and formats a row into the
  64 bytes of `buff`; the theorems `preprocess32_eq_preprocess`, `cluster32_eq_cluster`
  and `select32_eq_select` state when the two agree;
* `boost::string_ref` chromosome names are `String`s, compared lexicographically;
* every `for`/`while` loop is a function recursing on a fuel argument that the
  caller sets to the length of the vector; the refinement lemmas below show that
  this fuel is always enough;
* progress messages written to `cout` are not modelled.
-/

namespace ClusterPETs

/-- The record `struct PET` (lines 24-29). -/
structure PET where
  chrom1 : String
  start1 : Int
  end1 : Int
  chrom2 : String
  start2 : Int
  end2 : Int
  count : Int
deriving DecidableEq, Repr

/-- The four numeric command line options (lines 53, 62-65). -/
structure Config where
  self_ligation : Int
  extension : Int
  pet_cutoff : Int
  cluster_cutoff : Int
deriving DecidableEq, Repr

/-- The comparator `PET::operator<` (lines 31-40): `p.lt a` is `p < a`. -/
def PET.lt (p a : PET) : Bool :=
  if p.chrom1 ≠ a.chrom1 then decide (p.chrom1 < a.chrom1)
  else if p.start1 ≠ a.start1 then decide (p.start1 < a.start1)
  else if p.end1 ≠ a.end1 then decide (p.end1 < a.end1)
  else if p.chrom2 ≠ a.chrom2 then decide (p.chrom2 < a.chrom2)
  else if p.start2 ≠ a.start2 then decide (p.start2 < a.start2)
  else if p.end2 ≠ a.end2 then decide (p.end2 < a.end2)
  else false

/-- The relation "not after": `a` may stand before `b` in a sequence sorted with `operator<`. -/
def PET.notAfter (a b : PET) : Prop := PET.lt b a = false

instance : DecidableRel PET.notAfter := fun a b => by
  unfold PET.notAfter
  exact inferInstance

/-- Modelled from the spec: the call `sort(pets.begin(), pets.end())` (line 99) runs
`std::sort`, whose algorithm is in the standard library and not in the source. The spec asks
for the records in ascending order of the key, ties placed deterministically; insertion sort
driven by `operator<` alone is such a sort. It keeps tied records in input order, so the
permutations of an input reach every placement of its ties. -/
def sortPETs (pets : List PET) : List PET :=
  pets.insertionSort PET.notAfter

/-- The body of the preprocessing loop for one record (lines 105-124), statement by statement,
on mathematical integers; `preprocessBody32` is the same body on 32-bit integers. -/
def preprocessBody (cfg : Config) (pet : PET) : PET :=
  let pet := if pet.chrom1 ≠ pet.chrom2 ∨ pet.start1 > pet.end1 ∨ pet.start2 > pet.end2
    then { pet with count := 0 } else pet
  let pet := if pet.start2 - pet.end1 < cfg.self_ligation then { pet with count := 0 } else pet
  let pet := if pet.count < cfg.pet_cutoff then { pet with count := 0 } else pet
  let pet := { pet with start1 := max 0 (pet.start1 - cfg.extension) }
  let pet := { pet with end1 := pet.end1 + cfg.extension }
  let pet := { pet with start2 := max 0 (pet.start2 - cfg.extension) }
  { pet with end2 := pet.end2 + cfg.extension }

/-- The preprocessing loop `for (int i = 0; i < pets.size(); i++)` (lines 104-125), from index
`i` on. -/
def preprocessLoop (cfg : Config) : Nat → Nat → List PET → List PET
  | 0, _, pets => pets
  | fuel + 1, i, pets =>
    match pets[i]? with
    | none => pets
    | some pet => preprocessLoop cfg fuel (i + 1) (pets.set i (preprocessBody cfg pet))

/-- The preprocessing stage (lines 104-125). -/
def preprocess (cfg : Config) (pets : List PET) : List PET :=
  preprocessLoop cfg pets.length 0 pets

/-- The pruning test `can.start1 > cluster.end1 or can.chrom1 != cluster.chrom1` (line 137). -/
def pruneBreak (cluster can : PET) : Bool :=
  decide (can.start1 > cluster.end1) || decide (can.chrom1 ≠ cluster.chrom1)

/-- The anchor-1 half of the merge condition (lines 140-141). -/
def overlap1 (cluster can : PET) : Bool :=
  (decide (cluster.start1 ≤ can.start1) && decide (can.start1 ≤ cluster.end1)) ||
  (decide (cluster.start1 ≤ can.end1) && decide (can.end1 ≤ cluster.end1))

/-- The anchor-2 half of the merge condition (lines 142-143). -/
def overlap2 (cluster can : PET) : Bool :=
  (decide (cluster.start2 ≤ can.start2) && decide (can.start2 ≤ cluster.end2)) ||
  (decide (cluster.start2 ≤ can.end2) && decide (can.end2 ≤ cluster.end2))

/-- The merge condition of lines 139-143. -/
def overlaps (cluster can : PET) : Bool :=
  overlap1 cluster can && overlap2 cluster can

/-- The five assignments to `cluster` in the merge branch (lines 145-149), on mathematical
integers; `absorb32` is the same with the 32-bit sum of the counts. -/
def absorb (cluster can : PET) : PET :=
  let cluster := { cluster with start1 := min cluster.start1 can.start1 }
  let cluster := { cluster with end1 := max cluster.end1 can.end1 }
  let cluster := { cluster with start2 := min cluster.start2 can.start2 }
  let cluster := { cluster with end2 := max cluster.end2 can.end2 }
  { cluster with count := cluster.count + can.count }

/-- The assignment `can.count = 0` (line 150). -/
def zeroed (can : PET) : PET := { can with count := 0 }

/-- The inner loop `while (j < pets.size())` for seed `i` (lines 135-153). `cluster` is the
reference `pets[i]`, so both the pruning test and the merge condition read the current record
`i`. The candidate index starts at `i + 1`, so `cluster` and `can` are distinct records. -/
def scanLoop : Nat → Nat → Nat → List PET → List PET
  | 0, _, _, pets => pets
  | fuel + 1, i, j, pets =>
    match pets[i]?, pets[j]? with
    | some cluster, some can =>
      if pruneBreak cluster can then pets
      else if overlaps cluster can then
        scanLoop fuel i (j + 1) ((pets.set i (absorb cluster can)).set j (zeroed can))
      else scanLoop fuel i (j + 1) pets
    | _, _ => pets

/-- The outer clustering loop `for (int i = 0; i < pets.size(); i++)` (lines 130-154), from
seed index `i` on. -/
def clusterLoop : Nat → Nat → List PET → List PET
  | 0, _, pets => pets
  | fuel + 1, i, pets =>
    match pets[i]? with
    | none => pets
    | some p =>
      if p.count = 0 then clusterLoop fuel (i + 1) pets
      else clusterLoop fuel (i + 1) (scanLoop pets.length i (i + 1) pets)

/-- The clustering stage (lines 130-154). -/
def cluster (pets : List PET) : List PET :=
  clusterLoop pets.length 0 pets

/-- The seven fields of one record laid out by the format of line 166, with the names in full
and no bound on the length; `formatRow32` and `outputLoop32` describe `sprintf` into the
64-byte array `buff`. -/
def formatRow (p : PET) : String :=
  p.chrom1 ++ "\t" ++ toString p.start1 ++ "\t" ++ toString p.end1 ++ "\t" ++
  p.chrom2 ++ "\t" ++ toString p.start2 ++ "\t" ++ toString p.end2 ++ "\t" ++
  toString p.count ++ "\n"

/-- The state of the output loop: the vector, the rows written to `ofs` so far, and the
counter `c`. -/
structure OutState where
  pets : List PET
  rows : List String
  c : Nat
deriving DecidableEq, Repr

/-- The output loop `for (int i = 0; i < pets.size(); i++)` (lines 162-170), from index `i`
on. -/
def outputLoop (cluster_cutoff : Int) : Nat → Nat → OutState → OutState
  | 0, _, st => st
  | fuel + 1, i, st =>
    match st.pets[i]? with
    | none => st
    | some p =>
      if p.count ≥ cluster_cutoff then
        outputLoop cluster_cutoff fuel (i + 1)
          { st with rows := st.rows ++ [formatRow p], c := st.c + 1 }
      else outputLoop cluster_cutoff fuel (i + 1) st

/-- The output stage (lines 159-172). -/
def select (cluster_cutoff : Int) (pets : List PET) : OutState :=
  outputLoop cluster_cutoff pets.length 0 { pets := pets, rows := [], c := 0 }

/-- The stages of `main` after parsing: sort, preprocess, cluster (lines 97-155). -/
def finalSequence (cfg : Config) (pets : List PET) : List PET :=
  cluster (preprocess cfg (sortPETs pets))

/-- The stages of `main` after parsing, output included (lines 97-172). -/
def run (cfg : Config) (pets : List PET) : OutState :=
  select cfg.cluster_cutoff (finalSequence cfg pets)

/-! ## List-recursive descriptions of the loops

The three loops only ever touch the records at or after the current index, so each of them is
described by a function recursing on the part of the vector that is still to be visited. The
refinement lemmas `preprocess_eq_map`, `cluster_eq_clusterList` and `select_eq` connect them to
the loops above. -/

/-- The inner loop seen from the seed: `scan cluster rest` scans the candidates `rest` that
follow the seed and returns the final seed record and the candidates after the scan. -/
def scan (cluster : PET) : List PET → PET × List PET
  | [] => (cluster, [])
  | can :: rest =>
    if pruneBreak cluster can then (cluster, can :: rest)
    else if overlaps cluster can then
      ((scan (absorb cluster can) rest).1, zeroed can :: (scan (absorb cluster can) rest).2)
    else ((scan cluster rest).1, can :: (scan cluster rest).2)

/-- The outer loop seen from the current seed: the records from the seed on, after the pass. -/
def clusterList : List PET → List PET
  | [] => []
  | p :: rest =>
    if p.count = 0 then p :: clusterList rest
    else (scan p rest).1 :: clusterList (scan p rest).2
termination_by l => l.length
decreasing_by
  · simp
  · have key : ∀ (l : List PET) (c : PET), (scan c l).2.length = l.length := by
      intro l
      induction l with
      | nil => intro _; simp [scan]
      | cons x xs ih =>
        intro c
        unfold scan
        split
        · rfl
        · split <;> simp [ih]
    simp [key]

/-- The records selected by the output loop. -/
def emitted (cluster_cutoff : Int) (pets : List PET) : List PET :=
  pets.filter (fun p => decide (p.count ≥ cluster_cutoff))

/-- The sum of the counts of a sequence of records. -/
def totalCount (pets : List PET) : Int :=
  (pets.map PET.count).sum

/-- The condition under which preprocessing keeps the count of a record: it is valid, its
anchors are at least `self_ligation` apart, and its count reaches `pet_cutoff`. -/
def passesFilters (cfg : Config) (p : PET) : Bool :=
  decide (p.chrom1 = p.chrom2) && decide (p.start1 ≤ p.end1) && decide (p.start2 ≤ p.end2) &&
  decide (p.start2 - p.end1 ≥ cfg.self_ligation) && decide (p.count ≥ cfg.pet_cutoff)

/-- The sort key `(chrom1, start1, end1, chrom2, start2, end2)` of a record. -/
def PET.key (p : PET) : String × Int × Int × String × Int × Int :=
  (p.chrom1, p.start1, p.end1, p.chrom2, p.start2, p.end2)

/-- The sort key as an element of the lexicographic product order. -/
def PET.lexKey (p : PET) : String ×ₗ Int ×ₗ Int ×ₗ String ×ₗ Int ×ₗ Int :=
  toLex (p.chrom1, toLex (p.start1, toLex (p.end1, toLex (p.chrom2, toLex (p.start2, p.end2)))))

/-- Two sequences that differ by exchanging two neighbours with the same sort key: the only
freedom a sort driven by `operator<` has. -/
inductive TieSwap : List PET → List PET → Prop
  | here (x y : PET) (post : List PET) : x.key = y.key →
      TieSwap (x :: y :: post) (y :: x :: post)
  | cons (h : PET) {l l' : List PET} : TieSwap l l' → TieSwap (h :: l) (h :: l')

/-- The configuration of Scenario A of the specification. -/
def scenarioA_cfg : Config :=
  { self_ligation := 1000, extension := 0, pet_cutoff := 2, cluster_cutoff := 4 }

/-- The first record of Scenario A. -/
def scenarioA_p : PET :=
  { chrom1 := "chrom", start1 := 100, end1 := 200,
    chrom2 := "chrom", start2 := 5000, end2 := 5100, count := 3 }

/-- The second record of Scenario A. -/
def scenarioA_q : PET :=
  { chrom1 := "chrom", start1 := 100, end1 := 200,
    chrom2 := "chrom", start2 := 5050, end2 := 5150, count := 5 }

/-- The configuration of the zero-count candidate example. -/
def deadCandidate_cfg : Config :=
  { self_ligation := 1000, extension := 0, pet_cutoff := 2, cluster_cutoff := 4 }

/-- The input of the zero-count candidate example: the second record has count 1, below
`pet_cutoff = 2`, and overlaps the first record on both anchors. -/
def deadCandidate_input : List PET :=
  [ { chrom1 := "chr1", start1 := 100, end1 := 200,
      chrom2 := "chr1", start2 := 5000, end2 := 5100, count := 5 },
    { chrom1 := "chr1", start1 := 150, end1 := 300,
      chrom2 := "chr1", start2 := 5050, end2 := 5200, count := 1 } ]

/-! ## Instrumented and alternative passes -/

/-- The inner loop of lines 135-153 together with a ghost log: the indices `j` of the
candidates for which the merge branch (lines 145-150) was taken, in order. The vector is
handled exactly as in `scanLoop`. -/
def scanLoopLog : Nat → Nat → Nat → List PET → List Nat → List PET × List Nat
  | 0, _, _, pets, log => (pets, log)
  | fuel + 1, i, j, pets, log =>
    match pets[i]?, pets[j]? with
    | some cluster, some can =>
      if pruneBreak cluster can then (pets, log)
      else if overlaps cluster can then
        scanLoopLog fuel i (j + 1) ((pets.set i (absorb cluster can)).set j (zeroed can))
          (log ++ [j])
      else scanLoopLog fuel i (j + 1) pets log
    | _, _ => (pets, log)

/-- The outer loop of lines 130-154 together with a ghost log: one entry `(i, js)` for every
seed `i` that is scanned, `js` being the candidates merged into it, in order. -/
def clusterLoopLog :
    Nat → Nat → List PET → List (Nat × List Nat) → List PET × List (Nat × List Nat)
  | 0, _, pets, log => (pets, log)
  | fuel + 1, i, pets, log =>
    match pets[i]? with
    | none => (pets, log)
    | some p =>
      if p.count = 0 then clusterLoopLog fuel (i + 1) pets log
      else clusterLoopLog fuel (i + 1) (scanLoopLog pets.length i (i + 1) pets []).1
        (log ++ [(i, (scanLoopLog pets.length i (i + 1) pets []).2)])

/-- The merges of one clustering pass: for every scanned seed, the candidates merged into
it. -/
def clusterLog (pets : List PET) : List (Nat × List Nat) :=
  (clusterLoopLog pets.length 0 pets []).2

/-- The log of one scan, seen from the seed: `j` is the index of the first candidate. -/
def scanLog (j : Nat) (cluster : PET) : List PET → List Nat
  | [] => []
  | can :: rest =>
    if pruneBreak cluster can then []
    else if overlaps cluster can then j :: scanLog (j + 1) (absorb cluster can) rest
    else scanLog (j + 1) cluster rest

/-- The log of the pass, seen from the current seed, whose index is `i`. -/
def clusterLogList (i : Nat) : List PET → List (Nat × List Nat)
  | [] => []
  | p :: rest =>
    if p.count = 0 then clusterLogList (i + 1) rest
    else (i, scanLog (i + 1) p rest) :: clusterLogList (i + 1) (scan p rest).2
termination_by l => l.length
decreasing_by
  · simp
  · have key : ∀ (l : List PET) (c : PET), (scan c l).2.length = l.length := by
      intro l
      induction l with
      | nil => intro _; simp [scan]
      | cons x xs ih =>
        intro c
        unfold scan
        split
        · rfl
        · split <;> simp [ih]
    simp [key]

/-- Modelled from the spec: the anchor-1 test of section 4.3 against given bounds `s`, `e`:
the start or the end of the candidate's first anchor lies in `[s, e]`. -/
def overlap1At (s e : Int) (can : PET) : Bool :=
  (decide (s ≤ can.start1) && decide (can.start1 ≤ e)) ||
  (decide (s ≤ can.end1) && decide (can.end1 ≤ e))

/-- Modelled from the spec: the inner scan as section 4.3 words it. `seedStart1`, `seedEnd1`
are the bounds of the seed captured when the scan began. With `fixedSeed = true` the anchor-1
test uses that snapshot (the fixed-seed-bound behaviour of the spec); with `fixedSeed = false`
it uses the current bounds of the cluster (the growing-bound variant of section 9). The
pruning break, the anchor-2 test and the merge are as in the source. -/
def specScanLoop (fixedSeed : Bool) : Nat → Nat → Nat → Int → Int → List PET → List PET
  | 0, _, _, _, _, pets => pets
  | fuel + 1, i, j, seedStart1, seedEnd1, pets =>
    match pets[i]?, pets[j]? with
    | some cluster, some can =>
      if pruneBreak cluster can then pets
      else if (if fixedSeed then overlap1At seedStart1 seedEnd1 can
                else overlap1At cluster.start1 cluster.end1 can) && overlap2 cluster can then
        specScanLoop fixedSeed fuel i (j + 1) seedStart1 seedEnd1
          ((pets.set i (absorb cluster can)).set j (zeroed can))
      else specScanLoop fixedSeed fuel i (j + 1) seedStart1 seedEnd1 pets
    | _, _ => pets

/-- Modelled from the spec: the seed loop of section 4.3; the snapshot is taken when record
`i` becomes the seed. -/
def specClusterLoop (fixedSeed : Bool) : Nat → Nat → List PET → List PET
  | 0, _, pets => pets
  | fuel + 1, i, pets =>
    match pets[i]? with
    | none => pets
    | some p =>
      if p.count = 0 then specClusterLoop fixedSeed fuel (i + 1) pets
      else specClusterLoop fixedSeed fuel (i + 1)
        (specScanLoop fixedSeed pets.length i (i + 1) p.start1 p.end1 pets)

/-- Modelled from the spec: the Cluster Aggregator of section 4.3, with the fixed seed bound
(`true`) or the growing bound (`false`). -/
def specCluster (fixedSeed : Bool) (pets : List PET) : List PET :=
  specClusterLoop fixedSeed pets.length 0 pets

/-- The inner loop without the pruning break: every `j > i` is visited, and `j` is merged
into the seed when it has the chromosome of the cluster and passes the merge condition. -/
def scanLoopFull : Nat → Nat → Nat → List PET → List PET
  | 0, _, _, pets => pets
  | fuel + 1, i, j, pets =>
    match pets[i]?, pets[j]? with
    | some cluster, some can =>
      if decide (can.chrom1 = cluster.chrom1) && overlaps cluster can then
        scanLoopFull fuel i (j + 1) ((pets.set i (absorb cluster can)).set j (zeroed can))
      else scanLoopFull fuel i (j + 1) pets
    | _, _ => pets

/-- The outer loop over the unpruned inner loop. -/
def clusterLoopFull : Nat → Nat → List PET → List PET
  | 0, _, pets => pets
  | fuel + 1, i, pets =>
    match pets[i]? with
    | none => pets
    | some p =>
      if p.count = 0 then clusterLoopFull fuel (i + 1) pets
      else clusterLoopFull fuel (i + 1) (scanLoopFull pets.length i (i + 1) pets)

/-- The clustering pass without the pruning break. -/
def clusterFull (pets : List PET) : List PET :=
  clusterLoopFull pets.length 0 pets

/-- The unpruned inner loop seen from the seed. -/
def scanFull (cluster : PET) : List PET → PET × List PET
  | [] => (cluster, [])
  | can :: rest =>
    if decide (can.chrom1 = cluster.chrom1) && overlaps cluster can then
      ((scanFull (absorb cluster can) rest).1,
        zeroed can :: (scanFull (absorb cluster can) rest).2)
    else ((scanFull cluster rest).1, can :: (scanFull cluster rest).2)

/-- The unpruned outer loop seen from the current seed. -/
def clusterListFull : List PET → List PET
  | [] => []
  | p :: rest =>
    if p.count = 0 then p :: clusterListFull rest
    else (scanFull p rest).1 :: clusterListFull (scanFull p rest).2
termination_by l => l.length
decreasing_by
  · simp
  · have key : ∀ (l : List PET) (c : PET), (scanFull c l).2.length = l.length := by
      intro l
      induction l with
      | nil => intro _; simp [scanFull]
      | cons x xs ih =>
        intro c
        unfold scanFull
        split <;> simp [ih]
    simp [key]

/-- The columns `chrom1`, `start1` of a record: what the pruning break relies on. -/
def chromStart (p : PET) : String × Int := (p.chrom1, p.start1)

/-- A sequence ordered by `(chrom1, start1)`: of two records, the earlier one has the smaller
`chrom1`, or the same `chrom1` and a `start1` that is not larger. -/
def OrderedByChromStart (pets : List PET) : Prop :=
  pets.Pairwise (fun a b => a.chrom1 < b.chrom1 ∨ (a.chrom1 = b.chrom1 ∧ a.start1 ≤ b.start1))

/-- The size of the array `char buff[64]` of line 160. -/
def buffSize : Nat := 64

/-- The number of bytes `sprintf` writes for one record: the text and the terminating zero. -/
def sprintfBytes (p : PET) : Nat := (formatRow p).utf8ByteSize + 1

/-- The configuration of Scenario B of the specification: Scenario A with `pet_cutoff = 6`. -/
def scenarioB_cfg : Config :=
  { self_ligation := 1000, extension := 0, pet_cutoff := 6, cluster_cutoff := 4 }

/-- Two records on two chromosomes, for the chromosome independence example. -/
def twoChrom_A : List PET :=
  [ { chrom1 := "chr1", start1 := 100, end1 := 200,
      chrom2 := "chr1", start2 := 5000, end2 := 5100, count := 3 },
    { chrom1 := "chr1", start1 := 150, end1 := 250,
      chrom2 := "chr1", start2 := 5050, end2 := 5150, count := 5 } ]

/-- The records of the second chromosome of the chromosome independence example. -/
def twoChrom_B : List PET :=
  [ { chrom1 := "chr2", start1 := 120, end1 := 220,
      chrom2 := "chr2", start2 := 5000, end2 := 5100, count := 2 },
    { chrom1 := "chr2", start1 := 130, end1 := 230,
      chrom2 := "chr2", start2 := 5010, end2 := 5110, count := 4 } ]

/-- The input of the containing-candidate example: both anchors of the two records intersect,
and the second anchor of the second record strictly contains that of the first. -/
def containing_input : List PET :=
  [ { chrom1 := "chr1", start1 := 100, end1 := 200,
      chrom2 := "chr1", start2 := 5050, end2 := 5100, count := 5 },
    { chrom1 := "chr1", start1 := 150, end1 := 250,
      chrom2 := "chr1", start2 := 5000, end2 := 5150, count := 5 } ]

/-- The default configuration of the program (lines 62-65). -/
def default_cfg : Config :=
  { self_ligation := 8000, extension := 500, pet_cutoff := 2, cluster_cutoff := 4 }

/-- A record on an unplaced contig with a 22-character name. -/
def longName_input : List PET :=
  [ { chrom1 := "chr1_KI270706v1_random", start1 := 100000, end1 := 100500,
      chrom2 := "chr1_KI270706v1_random", start2 := 150000, end2 := 150500, count := 12 } ]

/-- The input of the chained-overlap example: the first anchors `[100,200]`, `[150,300]`,
`[250,400]` overlap in a chain, the second anchors are equal. -/
def chained_input : List PET :=
  [ { chrom1 := "chr1", start1 := 100, end1 := 200,
      chrom2 := "chr1", start2 := 5000, end2 := 5100, count := 2 },
    { chrom1 := "chr1", start1 := 150, end1 := 300,
      chrom2 := "chr1", start2 := 5000, end2 := 5100, count := 2 },
    { chrom1 := "chr1", start1 := 250, end1 := 400,
      chrom2 := "chr1", start2 := 5000, end2 := 5100, count := 2 } ]

/-- The input of a second clustering pass: the output of a first pass, sorted again. -/
def secondPassInput (first : List PET) : List PET :=
  sortPETs (cluster first)

/-- The input of the second-pass example, sorted and preprocessed: the first anchors are
`[0,100]`, `[10,20]`, `[30,40]`, `[50,60]`, and the fourth record bridges the second anchors
of the first and the second. -/
def secondPass_input : List PET :=
  [ { chrom1 := "chr1", start1 := 0, end1 := 100,
      chrom2 := "chr1", start2 := 6000, end2 := 6010, count := 2 },
    { chrom1 := "chr1", start1 := 10, end1 := 20,
      chrom2 := "chr1", start2 := 6050, end2 := 6200, count := 2 },
    { chrom1 := "chr1", start1 := 30, end1 := 40,
      chrom2 := "chr1", start2 := 6150, end2 := 6300, count := 2 },
    { chrom1 := "chr1", start1 := 50, end1 := 60,
      chrom2 := "chr1", start2 := 6005, end2 := 6060, count := 2 } ]

/-! ## The program on 32-bit integers

The definitions so far compute on mathematical integers and build rows of any length. The
definitions of this section repeat the stages with the arithmetic of the compiled program:
the result of every `int` subtraction or addition is reduced to 32 bits in two's complement,
and a row is formatted by `sprintf` into the 64-byte array `buff`, a name being printed up to
its first zero byte. The theorems `preprocess32_eq_preprocess`, `cluster32_eq_cluster` and
`select32_eq_select` state when the two descriptions agree. -/

/-- The value a 32-bit two's-complement `int` holds when the mathematical result is `x`. -/
def wrap32 (x : Int) : Int :=
  (x + 2147483648) % 4294967296 - 2147483648

/-- The values of a 32-bit `int`. -/
def inInt32 (x : Int) : Prop :=
  -2147483648 ≤ x ∧ x ≤ 2147483647

instance : DecidablePred inInt32 := fun x => by
  unfold inInt32
  exact inferInstance

/-- No subtraction or addition of the preprocessing of record `p` leaves the 32-bit range:
`start2 - end1`, `start - extension` and `end + extension` on both anchors. -/
def noOverflow (cfg : Config) (p : PET) : Prop :=
  inInt32 (p.start2 - p.end1) ∧ inInt32 (p.start1 - cfg.extension) ∧
  inInt32 (p.end1 + cfg.extension) ∧ inInt32 (p.start2 - cfg.extension) ∧
  inInt32 (p.end2 + cfg.extension)

instance (cfg : Config) : DecidablePred (noOverflow cfg) := fun p => by
  unfold noOverflow
  exact inferInstance

/-- The body of the preprocessing loop (lines 105-124) on 32-bit integers. -/
def preprocessBody32 (cfg : Config) (pet : PET) : PET :=
  let pet := if pet.chrom1 ≠ pet.chrom2 ∨ pet.start1 > pet.end1 ∨ pet.start2 > pet.end2
    then { pet with count := 0 } else pet
  let pet := if wrap32 (pet.start2 - pet.end1) < cfg.self_ligation
    then { pet with count := 0 } else pet
  let pet := if pet.count < cfg.pet_cutoff then { pet with count := 0 } else pet
  let pet := { pet with start1 := max 0 (wrap32 (pet.start1 - cfg.extension)) }
  let pet := { pet with end1 := wrap32 (pet.end1 + cfg.extension) }
  let pet := { pet with start2 := max 0 (wrap32 (pet.start2 - cfg.extension)) }
  { pet with end2 := wrap32 (pet.end2 + cfg.extension) }

/-- The preprocessing loop (lines 104-125) on 32-bit integers, from index `i` on. -/
def preprocessLoop32 (cfg : Config) : Nat → Nat → List PET → List PET
  | 0, _, pets => pets
  | fuel + 1, i, pets =>
    match pets[i]? with
    | none => pets
    | some pet => preprocessLoop32 cfg fuel (i + 1) (pets.set i (preprocessBody32 cfg pet))

/-- The preprocessing stage (lines 104-125) on 32-bit integers. -/
def preprocess32 (cfg : Config) (pets : List PET) : List PET :=
  preprocessLoop32 cfg pets.length 0 pets

/-- The condition under which the 32-bit preprocessing keeps the count of a record: as
`passesFilters`, with the 32-bit value of `start2 - end1`. -/
def passesFilters32 (cfg : Config) (p : PET) : Bool :=
  decide (p.chrom1 = p.chrom2) && decide (p.start1 ≤ p.end1) && decide (p.start2 ≤ p.end2) &&
  decide (wrap32 (p.start2 - p.end1) ≥ cfg.self_ligation) && decide (p.count ≥ cfg.pet_cutoff)

/-- The five assignments to `cluster` in the merge branch (lines 145-149) on 32-bit integers:
`min` and `max` stay in range, the sum `cluster.count += can.count` is reduced to 32 bits. -/
def absorb32 (cluster can : PET) : PET :=
  let cluster := { cluster with start1 := min cluster.start1 can.start1 }
  let cluster := { cluster with end1 := max cluster.end1 can.end1 }
  let cluster := { cluster with start2 := min cluster.start2 can.start2 }
  let cluster := { cluster with end2 := max cluster.end2 can.end2 }
  { cluster with count := wrap32 (cluster.count + can.count) }

/-- The inner loop of lines 135-153 on 32-bit integers. -/
def scanLoop32 : Nat → Nat → Nat → List PET → List PET
  | 0, _, _, pets => pets
  | fuel + 1, i, j, pets =>
    match pets[i]?, pets[j]? with
    | some cluster, some can =>
      if pruneBreak cluster can then pets
      else if overlaps cluster can then
        scanLoop32 fuel i (j + 1) ((pets.set i (absorb32 cluster can)).set j (zeroed can))
      else scanLoop32 fuel i (j + 1) pets
    | _, _ => pets

/-- The outer clustering loop of lines 130-154 on 32-bit integers. -/
def clusterLoop32 : Nat → Nat → List PET → List PET
  | 0, _, pets => pets
  | fuel + 1, i, pets =>
    match pets[i]? with
    | none => pets
    | some p =>
      if p.count = 0 then clusterLoop32 fuel (i + 1) pets
      else clusterLoop32 fuel (i + 1) (scanLoop32 pets.length i (i + 1) pets)

/-- The clustering stage (lines 130-154) on 32-bit integers. -/
def cluster32 (pets : List PET) : List PET :=
  clusterLoop32 pets.length 0 pets

/-- The 32-bit inner loop seen from the seed. -/
def scan32 (cluster : PET) : List PET → PET × List PET
  | [] => (cluster, [])
  | can :: rest =>
    if pruneBreak cluster can then (cluster, can :: rest)
    else if overlaps cluster can then
      ((scan32 (absorb32 cluster can) rest).1,
        zeroed can :: (scan32 (absorb32 cluster can) rest).2)
    else ((scan32 cluster rest).1, can :: (scan32 cluster rest).2)

/-- The 32-bit outer loop seen from the current seed. -/
def clusterList32 : List PET → List PET
  | [] => []
  | p :: rest =>
    if p.count = 0 then p :: clusterList32 rest
    else (scan32 p rest).1 :: clusterList32 (scan32 p rest).2
termination_by l => l.length
decreasing_by
  · simp
  · have key : ∀ (l : List PET) (c : PET), (scan32 c l).2.length = l.length := by
      intro l
      induction l with
      | nil => intro _; simp [scan32]
      | cons x xs ih =>
        intro c
        unfold scan32
        split
        · rfl
        · split <;> simp [ih]
    simp [key]

/-- What `%s` prints of `name.c_str()` (lines 165-166): the name up to its first zero byte. -/
def cString (name : String) : String :=
  String.mk (name.data.takeWhile (fun ch => decide (ch ≠ Char.ofNat 0)))

/-- The text `sprintf` produces for one record with the format of line 166. -/
def formatRow32 (p : PET) : String :=
  cString p.chrom1 ++ "\t" ++ toString p.start1 ++ "\t" ++ toString p.end1 ++ "\t" ++
  cString p.chrom2 ++ "\t" ++ toString p.start2 ++ "\t" ++ toString p.end2 ++ "\t" ++
  toString p.count ++ "\n"

/-- The number of bytes `sprintf` writes into `buff` for one record: the text and the
terminating zero. -/
def sprintfBytes32 (p : PET) : Nat := (formatRow32 p).utf8ByteSize + 1

/-- The output loop of lines 162-170 with the array `buff`: when the bytes of a row do not
fit into `buff`, `sprintf` writes past its end, the behaviour of the program is undefined, and
the result is `none`; otherwise `ofs << buff` appends the text to the output. -/
def outputLoop32 (cluster_cutoff : Int) : Nat → Nat → OutState → Option OutState
  | 0, _, st => some st
  | fuel + 1, i, st =>
    match st.pets[i]? with
    | none => some st
    | some p =>
      if p.count ≥ cluster_cutoff then
        if sprintfBytes32 p ≤ buffSize then
          outputLoop32 cluster_cutoff fuel (i + 1)
            { st with rows := st.rows ++ [formatRow32 p], c := st.c + 1 }
        else none
      else outputLoop32 cluster_cutoff fuel (i + 1) st

/-- The output stage (lines 159-172) with the array `buff`. -/
def select32 (cluster_cutoff : Int) (pets : List PET) : Option OutState :=
  outputLoop32 cluster_cutoff pets.length 0 { pets := pets, rows := [], c := 0 }

/-- Sort, preprocess, cluster (lines 97-155) on 32-bit integers. -/
def finalSequence32 (cfg : Config) (pets : List PET) : List PET :=
  cluster32 (preprocess32 cfg (sortPETs pets))

/-- The stages of `main` after parsing (lines 97-172) on 32-bit integers and with the array
`buff`; `none` when a row overflows `buff`. -/
def run32 (cfg : Config) (pets : List PET) : Option OutState :=
  select32 cfg.cluster_cutoff (finalSequence32 cfg pets)

/-- A valid record whose `start2 - end1` is 2147483649, outside the 32-bit range. -/
def wideGap_p : PET :=
  { chrom1 := "chr1", start1 := -10, end1 := -2,
    chrom2 := "chr1", start2 := 2147483647, end2 := 2147483647, count := 5 }

/-- The first record of Scenario A with the largest 32-bit count. -/
def bigCount_p : PET := { scenarioA_p with count := 2147483647 }

/-- The second record of Scenario A with count 2. -/
def bigCount_q : PET := { scenarioA_q with count := 2 }

/-- The first record of Scenario A on a contig with a 22-character name. -/
def longName_p : PET :=
  { scenarioA_p with chrom1 := "chr1_KI270706v1_random", chrom2 := "chr1_KI270706v1_random" }

/-- The second record of Scenario A on the same contig. -/
def longName_q : PET :=
  { scenarioA_q with chrom1 := "chr1_KI270706v1_random", chrom2 := "chr1_KI270706v1_random" }

/-- A name with a zero byte after `chr`. -/
def zeroByteName : String := "chr" ++ String.singleton (Char.ofNat 0) ++ "x"

/-- A record whose two names contain a zero byte. -/
def zeroByte_p : PET := { scenarioA_p with chrom1 := zeroByteName, chrom2 := zeroByteName }

/-- Two records of Scenario A whose second anchors end at the largest 32-bit value. -/
def wideEnd_p : PET := { scenarioA_p with end2 := 2147483647 }

/-- The second of the two records that end at the largest 32-bit value. -/
def wideEnd_q : PET := { scenarioA_q with end2 := 2147483647 }

/-- Scenario A with `extension = 500`. -/
def wideEnd_cfg : Config :=
  { self_ligation := 1000, extension := 500, pet_cutoff := 2, cluster_cutoff := 4 }

/-! ## Refinement: the loops compute the list-recursive descriptions -/

theorem getElem?_at (pre : List PET) (x : PET) (post : List PET) (n : Nat)
    (h : n = pre.length) : (pre ++ x :: post)[n]? = some x := by
  subst h
  rw [List.getElem?_append_right (Nat.le_refl _)]
  simp

theorem set_at (pre : List PET) (x y : PET) (post : List PET) (n : Nat)
    (h : n = pre.length) : (pre ++ x :: post).set n y = pre ++ y :: post := by
  subst h
  simp

theorem getElem?_at_length (pre : List PET) (x : PET) (post : List PET) :
    (pre ++ x :: post)[pre.length]? = some x :=
  getElem?_at pre x post _ rfl

theorem set_at_length (pre : List PET) (x y : PET) (post : List PET) :
    (pre ++ x :: post).set pre.length y = pre ++ y :: post := by
  simp

theorem preprocessLoop_spec (cfg : Config) :
    ∀ (fuel : Nat) (pre rest : List PET), rest.length ≤ fuel →
      preprocessLoop cfg fuel pre.length (pre ++ rest) = pre ++ rest.map (preprocessBody cfg) := by
  intro fuel
  induction fuel with
  | zero =>
    intro pre rest h
    have : rest = [] := List.length_eq_zero.mp (Nat.le_zero.mp h)
    subst this
    simp [preprocessLoop]
  | succ n ih =>
    intro pre rest h
    cases rest with
    | nil => simp [preprocessLoop]
    | cons x xs =>
      have hlen : xs.length ≤ n := by simpa using h
      have step := ih (pre ++ [preprocessBody cfg x]) xs hlen
      simp only [List.length_append, List.length_singleton, List.append_assoc,
        List.singleton_append] at step
      simp only [preprocessLoop, getElem?_at_length, set_at_length, List.map_cons]
      exact step

/-- The preprocessing loop applies the loop body to every record, each on its own. -/
theorem preprocess_eq_map (cfg : Config) (pets : List PET) :
    preprocess cfg pets = pets.map (preprocessBody cfg) := by
  have h := preprocessLoop_spec cfg pets.length [] pets (Nat.le_refl _)
  simpa [preprocess] using h

theorem scan_length (l : List PET) : ∀ c : PET, (scan c l).2.length = l.length := by
  induction l with
  | nil => intro c; simp [scan]
  | cons x xs ih =>
    intro c
    unfold scan
    split
    · rfl
    · split <;> simp [ih]

theorem scanLoop_spec :
    ∀ (rest : List PET) (fuel : Nat) (pre : List PET) (c : PET) (mid : List PET),
      rest.length ≤ fuel →
      scanLoop fuel pre.length (pre.length + 1 + mid.length) (pre ++ c :: (mid ++ rest)) =
        pre ++ (scan c rest).1 :: (mid ++ (scan c rest).2) := by
  intro rest
  induction rest with
  | nil =>
    intro fuel pre c mid _
    have hj : (pre ++ c :: (mid ++ []))[pre.length + 1 + mid.length]? = none := by
      apply List.getElem?_eq_none
      simp
      omega
    cases fuel with
    | zero => simp [scanLoop, scan]
    | succ n =>
      simp only [scanLoop, hj, scan]
      split <;> simp_all
  | cons can rest ih =>
    intro fuel pre c mid h
    cases fuel with
    | zero => simp at h
    | succ n =>
      have hlen : rest.length ≤ n := by simpa using h
      have hi : (pre ++ c :: (mid ++ can :: rest))[pre.length]? = some c :=
        getElem?_at_length pre c _
      have hj : (pre ++ c :: (mid ++ can :: rest))[pre.length + 1 + mid.length]? = some can := by
        have := getElem?_at (pre ++ c :: mid) can rest (pre.length + 1 + mid.length)
          (by simp; omega)
        simpa only [List.append_assoc, List.cons_append] using this
      simp only [scanLoop, hi, hj, scan]
      by_cases hb : pruneBreak c can = true
      · simp [hb]
      · simp only [hb, if_false, Bool.false_eq_true]
        by_cases ho : overlaps c can = true
        · simp only [ho, if_true]
          have hset : ((pre ++ c :: (mid ++ can :: rest)).set pre.length (absorb c can)).set
              (pre.length + 1 + mid.length) (zeroed can) =
              pre ++ absorb c can :: ((mid ++ [zeroed can]) ++ rest) := by
            rw [set_at_length]
            have := set_at (pre ++ absorb c can :: mid) can (zeroed can) rest
              (pre.length + 1 + mid.length) (by simp; omega)
            simpa only [List.append_assoc, List.cons_append, List.singleton_append,
              List.nil_append] using this
          rw [hset]
          have step := ih n pre (absorb c can) (mid ++ [zeroed can]) hlen
          simp only [List.length_append, List.length_singleton] at step
          rw [show pre.length + 1 + mid.length + 1 = pre.length + 1 + (mid.length + 1) by omega,
            step]
          simp
        · simp only [ho, if_false, Bool.false_eq_true]
          have step := ih n pre c (mid ++ [can]) hlen
          simp only [List.length_append, List.length_singleton, List.append_assoc,
            List.singleton_append] at step
          rw [show pre.length + 1 + mid.length + 1 = pre.length + 1 + (mid.length + 1) by omega,
            step]

theorem clusterLoop_spec :
    ∀ (fuel : Nat) (pre rest : List PET), rest.length ≤ fuel →
      clusterLoop fuel pre.length (pre ++ rest) = pre ++ clusterList rest := by
  intro fuel
  induction fuel with
  | zero =>
    intro pre rest h
    have : rest = [] := List.length_eq_zero.mp (Nat.le_zero.mp h)
    subst this
    simp [clusterLoop, clusterList]
  | succ n ih =>
    intro pre rest h
    cases rest with
    | nil => simp [clusterLoop, clusterList]
    | cons x xs =>
      have hlen : xs.length ≤ n := by simpa using h
      simp only [clusterLoop, getElem?_at_length]
      rw [clusterList]
      by_cases hc : x.count = 0
      · simp only [hc, if_true]
        have step := ih (pre ++ [x]) xs hlen
        simpa using step
      · simp only [hc, if_false]
        have hs := scanLoop_spec xs (pre ++ x :: xs).length pre x [] (by simp; omega)
        simp only [List.length_nil, Nat.add_zero, List.nil_append] at hs
        rw [hs]
        have step := ih (pre ++ [(scan x xs).1]) (scan x xs).2 (by rw [scan_length]; exact hlen)
        simpa using step

/-- The clustering loops compute `clusterList`. -/
theorem cluster_eq_clusterList (pets : List PET) : cluster pets = clusterList pets := by
  have h := clusterLoop_spec pets.length [] pets (Nat.le_refl _)
  simpa [cluster] using h

theorem outputLoop_spec (cc : Int) :
    ∀ (fuel : Nat) (pre rest : List PET) (rows : List String) (c : Nat), rest.length ≤ fuel →
      outputLoop cc fuel pre.length { pets := pre ++ rest, rows := rows, c := c } =
        { pets := pre ++ rest, rows := rows ++ (emitted cc rest).map formatRow,
          c := c + (emitted cc rest).length } := by
  intro fuel
  induction fuel with
  | zero =>
    intro pre rest rows c h
    have : rest = [] := List.length_eq_zero.mp (Nat.le_zero.mp h)
    subst this
    simp [outputLoop, emitted]
  | succ n ih =>
    intro pre rest rows c h
    cases rest with
    | nil => simp [outputLoop, emitted]
    | cons x xs =>
      have hlen : xs.length ≤ n := by simpa using h
      simp only [outputLoop, getElem?_at_length]
      by_cases hc : x.count ≥ cc
      · simp only [hc, if_true]
        have step := ih (pre ++ [x]) xs (rows ++ [formatRow x]) (c + 1) hlen
        simp only [List.length_append, List.length_singleton, List.append_assoc,
          List.singleton_append] at step
        rw [step]
        simp [emitted, hc]
        omega
      · simp only [hc, if_false]
        have step := ih (pre ++ [x]) xs rows c hlen
        simp only [List.length_append, List.length_singleton, List.append_assoc,
          List.singleton_append] at step
        rw [step]
        simp [emitted, hc]

/-- The output loop writes the selected records in order and counts them. -/
theorem select_eq (cc : Int) (pets : List PET) :
    select cc pets =
      { pets := pets, rows := (emitted cc pets).map formatRow, c := (emitted cc pets).length } := by
  have h := outputLoop_spec cc pets.length [] pets [] 0 (Nat.le_refl _)
  simpa [select] using h

/-! ## Preprocessing -/

/-- The loop body in closed form: the four bounds are widened unconditionally, and the count
is kept exactly when the record passes the three filters on its input coordinates. -/
theorem preprocessBody_eq (cfg : Config) (p : PET) :
    preprocessBody cfg p =
      { chrom1 := p.chrom1
        start1 := max 0 (p.start1 - cfg.extension)
        end1 := p.end1 + cfg.extension
        chrom2 := p.chrom2
        start2 := max 0 (p.start2 - cfg.extension)
        end2 := p.end2 + cfg.extension
        count := if passesFilters cfg p = true then p.count else 0 } := by
  obtain ⟨c1, s1, e1, c2, s2, e2, n⟩ := p
  simp only [preprocessBody, passesFilters, PET.mk.injEq, true_and, and_true]
  by_cases hv : c1 ≠ c2 ∨ s1 > e1 ∨ s2 > e2
  · have hf : (decide (c1 = c2) && decide (s1 ≤ e1) && decide (s2 ≤ e2) &&
        decide (s2 - e1 ≥ cfg.self_ligation) && decide (n ≥ cfg.pet_cutoff)) = false := by
      rcases hv with h | h | h
      · simp [h]
      · simp [not_le.mpr h]
      · simp [not_le.mpr h]
    rw [if_pos hv, hf]
    split_ifs <;> simp_all
  · rw [if_neg hv]
    have hv1 : c1 = c2 := by
      by_contra h
      exact hv (Or.inl h)
    have hv2 : s1 ≤ e1 := by
      by_contra h
      exact hv (Or.inr (Or.inl (not_le.mp h)))
    have hv3 : s2 ≤ e2 := by
      by_contra h
      exact hv (Or.inr (Or.inr (not_le.mp h)))
    by_cases hs : s2 - e1 < cfg.self_ligation
    · rw [if_pos hs]
      have hf : (decide (c1 = c2) && decide (s1 ≤ e1) && decide (s2 ≤ e2) &&
          decide (s2 - e1 ≥ cfg.self_ligation) && decide (n ≥ cfg.pet_cutoff)) = false := by
        simp [not_le.mpr hs]
      rw [hf]
      split_ifs <;> simp_all
    · rw [if_neg hs]
      by_cases hc : n < cfg.pet_cutoff
      · rw [if_pos hc]
        have hf : (decide (c1 = c2) && decide (s1 ≤ e1) && decide (s2 ≤ e2) &&
            decide (s2 - e1 ≥ cfg.self_ligation) && decide (n ≥ cfg.pet_cutoff)) = false := by
          simp [not_le.mpr hc]
        rw [hf]
        simp
      · rw [if_neg hc]
        have hf : (decide (c1 = c2) && decide (s1 ≤ e1) && decide (s2 ≤ e2) &&
            decide (s2 - e1 ≥ cfg.self_ligation) && decide (n ≥ cfg.pet_cutoff)) = true := by
          simp [hv1, hv2, hv3, not_lt.mp hs, not_lt.mp hc]
        rw [hf]
        simp

/-- The preprocessing stage in closed form. -/
theorem preprocess_closed (cfg : Config) (pets : List PET) :
    preprocess cfg pets = pets.map (fun p =>
      { chrom1 := p.chrom1
        start1 := max 0 (p.start1 - cfg.extension)
        end1 := p.end1 + cfg.extension
        chrom2 := p.chrom2
        start2 := max 0 (p.start2 - cfg.extension)
        end2 := p.end2 + cfg.extension
        count := if passesFilters cfg p = true then p.count else 0 }) := by
  rw [preprocess_eq_map]
  exact List.map_congr_left (fun p _ => preprocessBody_eq cfg p)

theorem passesFilters_iff (cfg : Config) (p : PET) :
    passesFilters cfg p = true ↔
      (p.chrom1 = p.chrom2 ∧ p.start1 ≤ p.end1 ∧ p.start2 ≤ p.end2 ∧
        p.start2 - p.end1 ≥ cfg.self_ligation ∧ p.count ≥ cfg.pet_cutoff) := by
  simp [passesFilters, and_assoc]

/-! ## The comparator -/

theorem PET.lt_iff_lexKey (p a : PET) : PET.lt p a = true ↔ p.lexKey < a.lexKey := by
  unfold PET.lt PET.lexKey
  simp only [Prod.Lex.lt_iff]
  split_ifs with h1 h2 h3 h4 h5 h6
  · simp [h1]
  · simp only [not_not] at h1
    simp [h1, h2]
  · simp only [not_not] at h1 h2
    simp [h1, h2, h3]
  · simp only [not_not] at h1 h2 h3
    simp [h1, h2, h3, h4]
  · simp only [not_not] at h1 h2 h3 h4
    simp [h1, h2, h3, h4, h5]
  · simp only [not_not] at h1 h2 h3 h4 h5
    simp [h1, h2, h3, h4, h5, h6]
  · simp only [not_not] at h1 h2 h3 h4 h5 h6
    simp [h1, h2, h3, h4, h5, h6]

theorem PET.lexKey_eq_iff (p a : PET) : p.lexKey = a.lexKey ↔ p.key = a.key := by
  unfold PET.lexKey PET.key
  constructor
  · intro h
    have h' := congrArg ofLex h
    simp only [ofLex_toLex, Prod.mk.injEq] at h'
    obtain ⟨h1, h2⟩ := h'
    have h2' := congrArg ofLex h2
    simp only [ofLex_toLex, Prod.mk.injEq] at h2'
    obtain ⟨h3, h4⟩ := h2'
    have h4' := congrArg ofLex h4
    simp only [ofLex_toLex, Prod.mk.injEq] at h4'
    obtain ⟨h5, h6⟩ := h4'
    have h6' := congrArg ofLex h6
    simp only [ofLex_toLex, Prod.mk.injEq] at h6'
    obtain ⟨h7, h8⟩ := h6'
    have h8' := congrArg ofLex h8
    simp only [ofLex_toLex, Prod.mk.injEq] at h8'
    obtain ⟨h9, h10⟩ := h8'
    simp [h1, h3, h5, h7, h9, h10]
  · intro h
    simp only [Prod.mk.injEq] at h
    obtain ⟨h1, h2, h3, h4, h5, h6⟩ := h
    rw [h1, h2, h3, h4, h5, h6]

theorem PET.notAfter_iff (a b : PET) : PET.notAfter a b ↔ a.lexKey ≤ b.lexKey := by
  unfold PET.notAfter
  rw [← not_lt, ← PET.lt_iff_lexKey]
  simp

instance : IsTotal PET PET.notAfter :=
  ⟨fun a b => by
    rw [PET.notAfter_iff, PET.notAfter_iff]
    exact le_total _ _⟩

instance : IsTrans PET PET.notAfter :=
  ⟨fun a b c hab hbc => by
    rw [PET.notAfter_iff] at *
    exact le_trans hab hbc⟩

theorem sortPETs_perm (pets : List PET) : (sortPETs pets).Perm pets :=
  List.perm_insertionSort _ pets

theorem sortPETs_sorted (pets : List PET) : (sortPETs pets).Pairwise PET.notAfter :=
  List.sorted_insertionSort _ pets

/-! ## The clustering pass -/

theorem scan_nil (c : PET) : scan c [] = (c, []) := by
  simp [scan]

theorem scan_cons_break (c can : PET) (rest : List PET) (h : pruneBreak c can = true) :
    scan c (can :: rest) = (c, can :: rest) := by
  simp [scan, h]

theorem scan_cons_merge (c can : PET) (rest : List PET) (hb : pruneBreak c can = false)
    (ho : overlaps c can = true) :
    scan c (can :: rest) =
      ((scan (absorb c can) rest).1, zeroed can :: (scan (absorb c can) rest).2) := by
  simp [scan, hb, ho]

theorem scan_cons_skip (c can : PET) (rest : List PET) (hb : pruneBreak c can = false)
    (ho : overlaps c can = false) :
    scan c (can :: rest) = ((scan c rest).1, can :: (scan c rest).2) := by
  simp [scan, hb, ho]

theorem clusterList_nil : clusterList [] = [] := by
  rw [clusterList]

theorem clusterList_cons_zero (p : PET) (rest : List PET) (h : p.count = 0) :
    clusterList (p :: rest) = p :: clusterList rest := by
  rw [clusterList, if_pos h]

theorem clusterList_cons_seed (p : PET) (rest : List PET) (h : p.count ≠ 0) :
    clusterList (p :: rest) = (scan p rest).1 :: clusterList (scan p rest).2 := by
  rw [clusterList, if_neg h]

theorem totalCount_nil : totalCount [] = 0 := rfl

theorem totalCount_cons (p : PET) (l : List PET) :
    totalCount (p :: l) = p.count + totalCount l := by
  simp [totalCount]

theorem totalCount_perm {l l' : List PET} (h : l.Perm l') : totalCount l = totalCount l' := by
  unfold totalCount
  exact (h.map PET.count).sum_eq

theorem totalCount_filter_split (f : PET → Bool) (l : List PET) :
    totalCount (l.filter f) + totalCount (l.filter (fun p => !f p)) = totalCount l := by
  induction l with
  | nil => simp [totalCount]
  | cons x xs ih =>
    by_cases hx : f x = true
    · simp only [List.filter_cons, hx, if_true, Bool.not_true, Bool.false_eq_true, if_false,
        totalCount_cons]
      omega
    · simp only [Bool.not_eq_true] at hx
      simp only [List.filter_cons, hx, Bool.false_eq_true, if_false, Bool.not_false, if_true,
        totalCount_cons]
      omega

/-- One scan moves counts from candidates to the seed and loses none. -/
theorem scan_totalCount (l : List PET) :
    ∀ c : PET, (scan c l).1.count + totalCount (scan c l).2 = c.count + totalCount l := by
  induction l with
  | nil => intro c; simp [scan_nil]
  | cons can rest ih =>
    intro c
    by_cases hb : pruneBreak c can = true
    · rw [scan_cons_break c can rest hb]
    · simp only [Bool.not_eq_true] at hb
      by_cases ho : overlaps c can = true
      · rw [scan_cons_merge c can rest hb ho]
        have := ih (absorb c can)
        simp only [totalCount_cons, zeroed, absorb] at this ⊢
        omega
      · simp only [Bool.not_eq_true] at ho
        rw [scan_cons_skip c can rest hb ho]
        have := ih c
        simp only [totalCount_cons] at this ⊢
        omega

theorem clusterList_totalCount_aux :
    ∀ (n : Nat) (l : List PET), l.length = n → totalCount (clusterList l) = totalCount l := by
  intro n
  induction n with
  | zero =>
    intro l h
    have : l = [] := List.length_eq_zero.mp h
    subst this
    rw [clusterList_nil]
  | succ n ih =>
    intro l h
    cases l with
    | nil => simp at h
    | cons p rest =>
      have hlen : rest.length = n := by simpa using h
      by_cases hc : p.count = 0
      · rw [clusterList_cons_zero p rest hc, totalCount_cons, totalCount_cons, ih rest hlen]
      · rw [clusterList_cons_seed p rest hc, totalCount_cons, totalCount_cons,
          ih _ (by rw [scan_length]; exact hlen)]
        exact scan_totalCount rest p

/-- The clustering pass keeps the sum of all counts. -/
theorem clusterList_totalCount (l : List PET) : totalCount (clusterList l) = totalCount l :=
  clusterList_totalCount_aux l.length l rfl

theorem clusterList_length_aux :
    ∀ (n : Nat) (l : List PET), l.length = n → (clusterList l).length = l.length := by
  intro n
  induction n with
  | zero =>
    intro l h
    have : l = [] := List.length_eq_zero.mp h
    subst this
    rw [clusterList_nil]
  | succ n ih =>
    intro l h
    cases l with
    | nil => simp at h
    | cons p rest =>
      have hlen : rest.length = n := by simpa using h
      by_cases hc : p.count = 0
      · rw [clusterList_cons_zero p rest hc, List.length_cons, List.length_cons, ih rest hlen]
      · rw [clusterList_cons_seed p rest hc, List.length_cons, List.length_cons,
          ih _ (by rw [scan_length]; exact hlen), scan_length]

/-- The sum of the counts after preprocessing is the sum over the records that pass. -/
theorem totalCount_preprocess (cfg : Config) (pets : List PET) :
    totalCount (preprocess cfg pets) =
      totalCount (pets.filter (fun p => passesFilters cfg p)) := by
  rw [preprocess_eq_map]
  induction pets with
  | nil => rfl
  | cons x xs ih =>
    rw [List.map_cons, totalCount_cons, ih, preprocessBody_eq]
    by_cases hx : passesFilters cfg x = true
    · simp [List.filter_cons, hx, totalCount_cons]
    · simp [List.filter_cons, hx, totalCount_cons]

/-- The final sequence in terms of the list-recursive descriptions. -/
theorem finalSequence_eq (cfg : Config) (pets : List PET) :
    finalSequence cfg pets = clusterList ((sortPETs pets).map (preprocessBody cfg)) := by
  unfold finalSequence
  rw [cluster_eq_clusterList, preprocess_eq_map]

/-! ## Ties of the sort order do not influence the clusters -/

theorem PET.key_eq_iff (x y : PET) :
    x.key = y.key ↔ x.chrom1 = y.chrom1 ∧ x.start1 = y.start1 ∧ x.end1 = y.end1 ∧
      x.chrom2 = y.chrom2 ∧ x.start2 = y.start2 ∧ x.end2 = y.end2 := by
  simp [PET.key]

theorem PET.eq_of_key_count {x y : PET} (hk : x.key = y.key) (hc : x.count = y.count) :
    x = y := by
  obtain ⟨h1, h2, h3, h4, h5, h6⟩ := (PET.key_eq_iff x y).mp hk
  cases x
  cases y
  simp_all

theorem pruneBreak_congr (c : PET) {x y : PET} (hk : x.key = y.key) :
    pruneBreak c x = pruneBreak c y := by
  obtain ⟨h1, h2, _, _, _, _⟩ := (PET.key_eq_iff x y).mp hk
  simp [pruneBreak, h1, h2]

theorem overlaps_congr (c : PET) {x y : PET} (hk : x.key = y.key) :
    overlaps c x = overlaps c y := by
  obtain ⟨_, h2, h3, _, h5, h6⟩ := (PET.key_eq_iff x y).mp hk
  simp [overlaps, overlap1, overlap2, h2, h3, h5, h6]

theorem key_zeroed {x y : PET} (hk : x.key = y.key) : (zeroed x).key = (zeroed y).key := by
  simpa [PET.key, zeroed] using hk

theorem overlaps_iff (c x : PET) :
    overlaps c x = true ↔
      ((c.start1 ≤ x.start1 ∧ x.start1 ≤ c.end1) ∨ (c.start1 ≤ x.end1 ∧ x.end1 ≤ c.end1)) ∧
      ((c.start2 ≤ x.start2 ∧ x.start2 ≤ c.end2) ∨ (c.start2 ≤ x.end2 ∧ x.end2 ≤ c.end2)) := by
  simp [overlaps, overlap1, overlap2]

theorem pruneBreak_eq_false_iff (c x : PET) :
    pruneBreak c x = false ↔ x.start1 ≤ c.end1 ∧ x.chrom1 = c.chrom1 := by
  simp [pruneBreak]

/-- After a candidate has been merged, a second candidate with the same anchors is neither
pruned nor rejected by the merge condition. -/
theorem absorb_then_tie (c x y : PET) (hk : x.key = y.key) (hb : pruneBreak c x = false)
    (ho : overlaps c x = true) :
    pruneBreak (absorb c x) y = false ∧ overlaps (absorb c x) y = true := by
  obtain ⟨h1, h2, h3, _, h5, h6⟩ := (PET.key_eq_iff x y).mp hk
  rw [pruneBreak_eq_false_iff] at hb ⊢
  rw [overlaps_iff] at ho ⊢
  simp only [absorb]
  rw [← h1, ← h2, ← h3, ← h5, ← h6]
  obtain ⟨hb1, hb2⟩ := hb
  obtain ⟨ho1, ho2⟩ := ho
  refine ⟨⟨le_trans hb1 (le_max_left _ _), hb2⟩, ?_, ?_⟩
  · rcases ho1 with ⟨ha, hb'⟩ | ⟨ha, hb'⟩
    · exact Or.inl ⟨min_le_right _ _, le_trans hb' (le_max_left _ _)⟩
    · exact Or.inr ⟨le_trans (min_le_left _ _) ha, le_max_right _ _⟩
  · rcases ho2 with ⟨ha, hb'⟩ | ⟨ha, hb'⟩
    · exact Or.inl ⟨min_le_right _ _, le_trans hb' (le_max_left _ _)⟩
    · exact Or.inr ⟨le_trans (min_le_left _ _) ha, le_max_right _ _⟩

/-- Merging two candidates with the same anchors gives the same cluster in either order. -/
theorem absorb_absorb_tie (c x y : PET) (hk : x.key = y.key) :
    absorb (absorb c x) y = absorb (absorb c y) x := by
  obtain ⟨_, h2, h3, _, h5, h6⟩ := (PET.key_eq_iff x y).mp hk
  simp only [absorb, h2, h3, h5, h6, PET.mk.injEq, true_and]
  omega

/-- A scan treats two neighbouring candidates with the same anchors alike, in either order. -/
theorem scan_tieSwap {l l' : List PET} (h : TieSwap l l') :
    ∀ c : PET, (scan c l).1 = (scan c l').1 ∧ TieSwap (scan c l).2 (scan c l').2 := by
  induction h with
  | here x y post hk =>
    intro c
    have hbc := pruneBreak_congr c hk
    have hoc := overlaps_congr c hk
    by_cases hb : pruneBreak c x = true
    · rw [scan_cons_break c x _ hb, scan_cons_break c y _ (hbc ▸ hb)]
      exact ⟨rfl, TieSwap.here x y post hk⟩
    · simp only [Bool.not_eq_true] at hb
      have hby : pruneBreak c y = false := hbc ▸ hb
      by_cases ho : overlaps c x = true
      · have hoy : overlaps c y = true := hoc ▸ ho
        obtain ⟨hb2, ho2⟩ := absorb_then_tie c x y hk hb ho
        obtain ⟨hb3, ho3⟩ := absorb_then_tie c y x hk.symm hby hoy
        rw [scan_cons_merge c x _ hb ho, scan_cons_merge c y _ hby hoy,
          scan_cons_merge _ y _ hb2 ho2, scan_cons_merge _ x _ hb3 ho3,
          absorb_absorb_tie c x y hk]
        exact ⟨rfl, TieSwap.here _ _ _ (key_zeroed hk)⟩
      · simp only [Bool.not_eq_true] at ho
        have hoy : overlaps c y = false := hoc ▸ ho
        rw [scan_cons_skip c x _ hb ho, scan_cons_skip c y _ hby hoy,
          scan_cons_skip c y _ hby hoy, scan_cons_skip c x _ hb ho]
        exact ⟨rfl, TieSwap.here x y _ hk⟩
  | cons a _ ih =>
    intro c
    by_cases hb : pruneBreak c a = true
    · rw [scan_cons_break c a _ hb, scan_cons_break c a _ hb]
      exact ⟨rfl, TieSwap.cons a (by assumption)⟩
    · simp only [Bool.not_eq_true] at hb
      by_cases ho : overlaps c a = true
      · rw [scan_cons_merge c a _ hb ho, scan_cons_merge c a _ hb ho]
        exact ⟨(ih _).1, TieSwap.cons _ (ih _).2⟩
      · simp only [Bool.not_eq_true] at ho
        rw [scan_cons_skip c a _ hb ho, scan_cons_skip c a _ hb ho]
        exact ⟨(ih _).1, TieSwap.cons _ (ih _).2⟩

/-- A seed that no candidate can overlap is left alone by its scan, and so are the candidates. -/
theorem scan_inert (c : PET) (h : ∀ x, overlaps c x = false) : ∀ l, scan c l = (c, l) := by
  intro l
  induction l with
  | nil => exact scan_nil c
  | cons a rest ih =>
    by_cases hb : pruneBreak c a = true
    · exact scan_cons_break c a rest hb
    · simp only [Bool.not_eq_true] at hb
      rw [scan_cons_skip c a rest hb (h a), ih]

theorem clusterList_cons_inert (p : PET) (rest : List PET) (h : ∀ x, overlaps p x = false) :
    clusterList (p :: rest) = p :: clusterList rest := by
  by_cases hc : p.count = 0
  · exact clusterList_cons_zero p rest hc
  · rw [clusterList_cons_seed p rest hc, scan_inert p h]

/-- A record whose first or second anchor has its start after its end overlaps nothing. -/
theorem overlaps_of_inverted (c : PET) (h : ¬ (c.start1 ≤ c.end1 ∧ c.start2 ≤ c.end2)) :
    ∀ x, overlaps c x = false := by
  intro x
  by_contra hne
  have ho : overlaps c x = true := by simpa using hne
  rw [overlaps_iff] at ho
  apply h
  obtain ⟨h1, h2⟩ := ho
  constructor
  · rcases h1 with ⟨a, b⟩ | ⟨a, b⟩ <;> exact le_trans a b
  · rcases h2 with ⟨a, b⟩ | ⟨a, b⟩ <;> exact le_trans a b

theorem tie_merges (c x : PET) (hk : x.key = c.key) (h1 : c.start1 ≤ c.end1)
    (h2 : c.start2 ≤ c.end2) : pruneBreak c x = false ∧ overlaps c x = true := by
  obtain ⟨k1, k2, k3, _, k5, k6⟩ := (PET.key_eq_iff x c).mp hk
  rw [pruneBreak_eq_false_iff, overlaps_iff, k1, k2, k3, k5, k6]
  exact ⟨⟨h1, rfl⟩, Or.inl ⟨le_refl _, h1⟩, Or.inl ⟨le_refl _, h2⟩⟩

theorem absorb_tie_key (c x : PET) (hk : x.key = c.key) : (absorb c x).key = c.key := by
  obtain ⟨_, k2, k3, _, k5, k6⟩ := (PET.key_eq_iff x c).mp hk
  simp [PET.key, absorb, k2, k3, k5, k6]

theorem absorb_tie_zero (c x : PET) (hk : x.key = c.key) (hx : x.count = 0) :
    absorb c x = c := by
  apply PET.eq_of_key_count (absorb_tie_key c x hk)
  simp [absorb, hx]

theorem absorb_tie_comm (x y : PET) (hk : x.key = y.key) : absorb x y = absorb y x := by
  apply PET.eq_of_key_count
  · rw [absorb_tie_key x y hk.symm, absorb_tie_key y x hk, hk]
  · simp only [absorb]
    omega

theorem zeroed_of_count_zero (x : PET) (hx : x.count = 0) : zeroed x = x :=
  PET.eq_of_key_count (by simp [PET.key, zeroed]) (by simp [zeroed, hx])

theorem zeroed_tie {x y : PET} (hk : x.key = y.key) : zeroed x = zeroed y :=
  PET.eq_of_key_count (key_zeroed hk) (by simp [zeroed])

/-- A live seed followed by a dead record with the same anchors: the dead record stays where
it is and the seed scans on as if it were absent. -/
theorem clusterList_seed_dead_tie (x y : PET) (post : List PET) (hk : y.key = x.key)
    (h1 : x.start1 ≤ x.end1) (h2 : x.start2 ≤ x.end2) (hx : x.count ≠ 0) (hy : y.count = 0) :
    clusterList (x :: y :: post) = (scan x post).1 :: y :: clusterList (scan x post).2 := by
  obtain ⟨hb, ho⟩ := tie_merges x y hk h1 h2
  rw [clusterList_cons_seed x _ hx, scan_cons_merge x y post hb ho, absorb_tie_zero x y hk hy,
    zeroed_of_count_zero y hy, clusterList_cons_zero y _ hy]

/-- Exchanging the first two records, when they have the same anchors, permutes the result. -/
theorem clusterList_tie_head (x y : PET) (post : List PET) (hk : x.key = y.key) :
    (clusterList (x :: y :: post)).Perm (clusterList (y :: x :: post)) := by
  obtain ⟨_, k2, k3, _, k5, k6⟩ := (PET.key_eq_iff x y).mp hk
  by_cases hinv : x.start1 ≤ x.end1 ∧ x.start2 ≤ x.end2
  · obtain ⟨h1, h2⟩ := hinv
    have h1y : y.start1 ≤ y.end1 := by rw [← k2, ← k3]; exact h1
    have h2y : y.start2 ≤ y.end2 := by rw [← k5, ← k6]; exact h2
    by_cases hx : x.count = 0
    · by_cases hy : y.count = 0
      · rw [clusterList_cons_zero x _ hx, clusterList_cons_zero y _ hy,
          clusterList_cons_zero y _ hy, clusterList_cons_zero x _ hx]
        exact List.Perm.swap _ _ _
      · rw [clusterList_cons_zero x _ hx, clusterList_cons_seed y _ hy,
          clusterList_seed_dead_tie y x post hk h1y h2y hy hx]
        exact List.Perm.swap _ _ _
    · by_cases hy : y.count = 0
      · rw [clusterList_seed_dead_tie x y post hk.symm h1 h2 hx hy,
          clusterList_cons_zero y _ hy, clusterList_cons_seed x _ hx]
        exact List.Perm.swap _ _ _
      · obtain ⟨hb, ho⟩ := tie_merges x y hk.symm h1 h2
        obtain ⟨hb', ho'⟩ := tie_merges y x hk h1y h2y
        rw [clusterList_cons_seed x _ hx, clusterList_cons_seed y _ hy,
          scan_cons_merge x y post hb ho, scan_cons_merge y x post hb' ho',
          absorb_tie_comm x y hk, zeroed_tie hk]
  · have hx := overlaps_of_inverted x hinv
    have hy : ∀ z, overlaps y z = false := by
      apply overlaps_of_inverted
      rw [← k2, ← k3, ← k5, ← k6]
      exact hinv
    rw [clusterList_cons_inert x _ hx, clusterList_cons_inert y _ hy,
      clusterList_cons_inert y _ hy, clusterList_cons_inert x _ hx]
    exact List.Perm.swap _ _ _

theorem clusterList_tieSwap_aux :
    ∀ (n : Nat) (l l' : List PET), l.length = n → TieSwap l l' →
      (clusterList l).Perm (clusterList l') := by
  intro n
  induction n with
  | zero =>
    intro l l' hl h
    cases h <;> simp at hl
  | succ n ih =>
    intro l l' hl h
    cases h with
    | here x y post hk => exact clusterList_tie_head x y post hk
    | cons a ht =>
      rename_i t t'
      have hlen : t.length = n := by simpa using hl
      by_cases hc : a.count = 0
      · rw [clusterList_cons_zero a _ hc, clusterList_cons_zero a _ hc]
        exact List.Perm.cons _ (ih t t' hlen ht)
      · obtain ⟨e1, e2⟩ := scan_tieSwap ht a
        rw [clusterList_cons_seed a _ hc, clusterList_cons_seed a _ hc, e1]
        exact List.Perm.cons _ (ih _ _ (by rw [scan_length]; exact hlen) e2)

/-- The clustering pass gives the same records, up to order, on two sequences that differ by
exchanging neighbours with the same anchors. -/
theorem clusterList_tieSwap {l l' : List PET} (h : TieSwap l l') :
    (clusterList l).Perm (clusterList l') :=
  clusterList_tieSwap_aux l.length l l' rfl h

theorem preprocessBody_key {x y : PET} (cfg : Config) (hk : x.key = y.key) :
    (preprocessBody cfg x).key = (preprocessBody cfg y).key := by
  obtain ⟨k1, k2, k3, k4, k5, k6⟩ := (PET.key_eq_iff x y).mp hk
  rw [preprocessBody_eq, preprocessBody_eq]
  simp [PET.key, k1, k2, k3, k4, k5, k6]

theorem TieSwap.map_preprocess (cfg : Config) {l l' : List PET} (h : TieSwap l l') :
    TieSwap (l.map (preprocessBody cfg)) (l'.map (preprocessBody cfg)) := by
  induction h with
  | here x y post hk => exact TieSwap.here _ _ _ (preprocessBody_key cfg hk)
  | cons a _ ih => exact TieSwap.cons _ ih

theorem key_eq_of_notAfter {a b : PET} (h1 : PET.notAfter a b) (h2 : PET.notAfter b a) :
    a.key = b.key := by
  rw [PET.notAfter_iff] at h1 h2
  exact (PET.lexKey_eq_iff a b).mp (le_antisymm h1 h2)

/-- A record can be moved to the right across records with its own sort key by tie swaps. -/
theorem tieSwap_move (a : PET) (v : List PET) :
    ∀ u : List PET, (∀ x ∈ u, a.key = x.key) →
      Relation.ReflTransGen TieSwap (a :: (u ++ v)) (u ++ a :: v) := by
  intro u
  induction u with
  | nil => intro _; exact Relation.ReflTransGen.refl
  | cons x u ih =>
    intro h
    have hx : a.key = x.key := h x (List.mem_cons_self _ _)
    have hu : ∀ z ∈ u, a.key = z.key := fun z hz => h z (List.mem_cons_of_mem _ hz)
    have step1 : TieSwap (a :: x :: (u ++ v)) (x :: a :: (u ++ v)) := TieSwap.here a x _ hx
    have step2 : Relation.ReflTransGen TieSwap (x :: a :: (u ++ v)) (x :: (u ++ a :: v)) :=
      Relation.ReflTransGen.lift (fun l => x :: l) (fun _ _ hl => TieSwap.cons x hl) (ih hu)
    exact Relation.ReflTransGen.head step1 step2

/-- Two sorted arrangements of the same records differ by a chain of tie swaps. -/
theorem tieSwap_of_sorted_perm :
    ∀ (l l' : List PET), l.Perm l' → l.Pairwise PET.notAfter → l'.Pairwise PET.notAfter →
      Relation.ReflTransGen TieSwap l l' := by
  intro l
  induction l with
  | nil =>
    intro l' hp _ _
    rw [List.Perm.nil_eq hp]
  | cons a t ih =>
    intro l' hp hs hs'
    have ha : a ∈ l' := hp.subset (List.mem_cons_self _ _)
    obtain ⟨u, v, rfl⟩ := List.append_of_mem ha
    have hsa : ∀ b ∈ t, PET.notAfter a b := fun b hb => List.rel_of_pairwise_cons hs hb
    have hst : t.Pairwise PET.notAfter := List.Pairwise.of_cons hs
    rw [List.pairwise_append] at hs'
    obtain ⟨hsu, hsav, hsuv⟩ := hs'
    have hku : ∀ x ∈ u, a.key = x.key := by
      intro x hx
      have hxa : PET.notAfter x a := hsuv x hx a (List.mem_cons_self _ _)
      have hxl : x ∈ a :: t := hp.symm.subset (List.mem_append_left _ hx)
      have hax : PET.notAfter a x := by
        rcases List.mem_cons.mp hxl with rfl | hxt
        · exact hxa
        · exact hsa x hxt
      exact key_eq_of_notAfter hax hxa
    have hpt : t.Perm (u ++ v) := (hp.trans List.perm_middle).cons_inv
    have hsv : (u ++ v).Pairwise PET.notAfter := by
      rw [List.pairwise_append]
      exact ⟨hsu, List.Pairwise.of_cons hsav,
        fun x hx y hy => hsuv x hx y (List.mem_cons_of_mem _ hy)⟩
    have c1 : Relation.ReflTransGen TieSwap (a :: t) (a :: (u ++ v)) :=
      Relation.ReflTransGen.lift (fun l => a :: l) (fun _ _ hl => TieSwap.cons a hl)
        (ih (u ++ v) hpt hst hsv)
    exact c1.trans (tieSwap_move a v u hku)

theorem clusterList_preprocess_chain (cfg : Config) {l l' : List PET}
    (chain : Relation.ReflTransGen TieSwap l l') :
    (clusterList (l.map (preprocessBody cfg))).Perm
      (clusterList (l'.map (preprocessBody cfg))) := by
  induction chain with
  | refl => exact List.Perm.refl _
  | tail _ hstep ih => exact ih.trans (clusterList_tieSwap (hstep.map_preprocess cfg))

/-- The clusters do not depend on how the sort arranges records with equal keys. -/
theorem clusterList_preprocess_sorted_perm (cfg : Config) (l l' : List PET) (hp : l.Perm l')
    (hs : l.Pairwise PET.notAfter) (hs' : l'.Pairwise PET.notAfter) :
    (clusterList (l.map (preprocessBody cfg))).Perm
      (clusterList (l'.map (preprocessBody cfg))) :=
  clusterList_preprocess_chain cfg (tieSwap_of_sorted_perm l l' hp hs hs')

/-- The final sequences of two arrangements of the same input hold the same records. -/
theorem finalSequence_perm (cfg : Config) {l l' : List PET} (hp : l.Perm l') :
    (finalSequence cfg l).Perm (finalSequence cfg l') := by
  rw [finalSequence_eq, finalSequence_eq]
  exact clusterList_preprocess_sorted_perm cfg _ _
    (((sortPETs_perm l).trans hp).trans (sortPETs_perm l').symm)
    (sortPETs_sorted l) (sortPETs_sorted l')

/-! ## The claims -/

/-- Two overlapping records on mathematical integers and unbounded rows: with
`pet_cutoff ≥ 1`, `extension ≥ 0` and `cluster_cutoff ≥ 1`, two records on one chromosome that
pass the filters and overlap after extension end as one cluster (union of the extended
anchors, sum of the counts) followed by the second record with count zero, and the cluster is
the only row when the sum reaches `cluster_cutoff`. -/
theorem two_overlapping_records_exact (cfg : Config) (p q r1 r2 : PET)
    (hpc : 1 ≤ cfg.pet_cutoff) (hext : 0 ≤ cfg.extension) (hcc : 1 ≤ cfg.cluster_cutoff)
    (hchrom : p.chrom1 = q.chrom1)
    (hp : passesFilters cfg p = true) (hq : passesFilters cfg q = true)
    (hs : sortPETs [p, q] = [r1, r2])
    (h1 : ((preprocessBody cfg r1).start1 ≤ (preprocessBody cfg r2).start1 ∧
            (preprocessBody cfg r2).start1 ≤ (preprocessBody cfg r1).end1) ∨
          ((preprocessBody cfg r1).start1 ≤ (preprocessBody cfg r2).end1 ∧
            (preprocessBody cfg r2).end1 ≤ (preprocessBody cfg r1).end1))
    (h2 : ((preprocessBody cfg r1).start2 ≤ (preprocessBody cfg r2).start2 ∧
            (preprocessBody cfg r2).start2 ≤ (preprocessBody cfg r1).end2) ∨
          ((preprocessBody cfg r1).start2 ≤ (preprocessBody cfg r2).end2 ∧
            (preprocessBody cfg r2).end2 ≤ (preprocessBody cfg r1).end2)) :
    finalSequence cfg [p, q] =
      [ { chrom1 := r1.chrom1
          start1 := min (max 0 (r1.start1 - cfg.extension)) (max 0 (r2.start1 - cfg.extension))
          end1 := max (r1.end1 + cfg.extension) (r2.end1 + cfg.extension)
          chrom2 := r1.chrom2
          start2 := min (max 0 (r1.start2 - cfg.extension)) (max 0 (r2.start2 - cfg.extension))
          end2 := max (r1.end2 + cfg.extension) (r2.end2 + cfg.extension)
          count := p.count + q.count },
        { chrom1 := r2.chrom1
          start1 := max 0 (r2.start1 - cfg.extension)
          end1 := r2.end1 + cfg.extension
          chrom2 := r2.chrom2
          start2 := max 0 (r2.start2 - cfg.extension)
          end2 := r2.end2 + cfg.extension
          count := 0 } ] ∧
    p.count + q.count ≠ 0 ∧
    (p.count + q.count ≥ cfg.cluster_cutoff →
      (run cfg [p, q]).rows =
        [formatRow
          { chrom1 := r1.chrom1
            start1 := min (max 0 (r1.start1 - cfg.extension))
              (max 0 (r2.start1 - cfg.extension))
            end1 := max (r1.end1 + cfg.extension) (r2.end1 + cfg.extension)
            chrom2 := r1.chrom2
            start2 := min (max 0 (r1.start2 - cfg.extension))
              (max 0 (r2.start2 - cfg.extension))
            end2 := max (r1.end2 + cfg.extension) (r2.end2 + cfg.extension)
            count := p.count + q.count }] ∧
      (run cfg [p, q]).c = 1) := by
  have hperm : [r1, r2].Perm [p, q] := hs ▸ sortPETs_perm [p, q]
  have hall : ∀ r ∈ [r1, r2], passesFilters cfg r = true ∧ r.chrom1 = p.chrom1 := by
    intro r hr
    have hr' : r ∈ [p, q] := hperm.subset hr
    simp only [List.mem_cons, List.mem_singleton, List.not_mem_nil, or_false] at hr'
    rcases hr' with rfl | rfl
    · exact ⟨hp, rfl⟩
    · exact ⟨hq, hchrom.symm⟩
  obtain ⟨hr1, hc1⟩ := hall r1 (by simp)
  obtain ⟨hr2, hc2⟩ := hall r2 (by simp)
  have hsum : r1.count + r2.count = p.count + q.count := by
    have := totalCount_perm hperm
    simpa [totalCount] using this
  obtain ⟨_, _, _, _, hp5⟩ := (passesFilters_iff cfg p).mp hp
  obtain ⟨_, _, _, _, hq5⟩ := (passesFilters_iff cfg q).mp hq
  obtain ⟨_, _, _, _, hr15⟩ := (passesFilters_iff cfg r1).mp hr1
  obtain ⟨_, hr2v, _, _, _⟩ := (passesFilters_iff cfg r2).mp hr2
  have hne : p.count + q.count ≠ 0 := by omega
  have hfin : finalSequence cfg [p, q] =
      [absorb (preprocessBody cfg r1) (preprocessBody cfg r2),
        zeroed (preprocessBody cfg r2)] := by
    have hseed : (preprocessBody cfg r1).count ≠ 0 := by
      rw [preprocessBody_eq]
      simp only [hr1, if_true]
      omega
    have hb : pruneBreak (preprocessBody cfg r1) (preprocessBody cfg r2) = false := by
      rw [pruneBreak_eq_false_iff]
      refine ⟨?_, ?_⟩
      · rcases h1 with ⟨_, h⟩ | ⟨ha, hb⟩
        · exact h
        · refine le_trans ?_ hb
          rw [preprocessBody_eq, preprocessBody_eq] at ha
          rw [preprocessBody_eq]
          simp only at ha ⊢
          omega
      · rw [preprocessBody_eq, preprocessBody_eq]
        simp only
        rw [hc1, hc2]
    have ho : overlaps (preprocessBody cfg r1) (preprocessBody cfg r2) = true :=
      (overlaps_iff _ _).mpr ⟨h1, h2⟩
    rw [finalSequence_eq, hs, List.map_cons, List.map_cons, List.map_nil,
      clusterList_cons_seed _ _ hseed, scan_cons_merge _ _ _ hb ho, scan_nil,
      clusterList_cons_zero _ _ (by simp [zeroed]), clusterList_nil]
  have hrec : absorb (preprocessBody cfg r1) (preprocessBody cfg r2) =
      { chrom1 := r1.chrom1
        start1 := min (max 0 (r1.start1 - cfg.extension)) (max 0 (r2.start1 - cfg.extension))
        end1 := max (r1.end1 + cfg.extension) (r2.end1 + cfg.extension)
        chrom2 := r1.chrom2
        start2 := min (max 0 (r1.start2 - cfg.extension)) (max 0 (r2.start2 - cfg.extension))
        end2 := max (r1.end2 + cfg.extension) (r2.end2 + cfg.extension)
        count := p.count + q.count } := by
    rw [preprocessBody_eq, preprocessBody_eq]
    simp only [absorb, hr1, hr2, if_true, hsum]
  have hdead : zeroed (preprocessBody cfg r2) =
      { chrom1 := r2.chrom1
        start1 := max 0 (r2.start1 - cfg.extension)
        end1 := r2.end1 + cfg.extension
        chrom2 := r2.chrom2
        start2 := max 0 (r2.start2 - cfg.extension)
        end2 := r2.end2 + cfg.extension
        count := 0 } := by
    rw [preprocessBody_eq]
    simp only [zeroed]
  rw [hrec, hdead] at hfin
  refine ⟨hfin, hne, ?_⟩
  intro hge
  have hdeadlt : ¬ (0 : Int) ≥ cfg.cluster_cutoff := by omega
  unfold run
  rw [select_eq, hfin]
  simp [emitted, hge, hdeadlt]

/-- C2: order-invariance. For every configuration and every two arrangements of the same
input records, the records selected for output form the same multiset, and so do the rows
written; records with identical anchors and different counts are included, since the input
is arbitrary. The last part says the same for any two sorted arrangements of the two inputs,
whichever way the sort has placed records with equal keys. -/
theorem C2_order_invariance (cfg : Config) (l l' : List PET) (h : l.Perm l') :
    (emitted cfg.cluster_cutoff (finalSequence cfg l) : Multiset PET) =
      (emitted cfg.cluster_cutoff (finalSequence cfg l') : Multiset PET) ∧
    ((run cfg l).rows : Multiset String) = ((run cfg l').rows : Multiset String) ∧
    (run cfg l).c = (run cfg l').c ∧
    (∀ s s' : List PET, s.Perm l → s'.Perm l' →
      s.Pairwise (fun a b => PET.lt b a = false) →
      s'.Pairwise (fun a b => PET.lt b a = false) →
      ((select cfg.cluster_cutoff (cluster (preprocess cfg s))).rows : Multiset String) =
        ((select cfg.cluster_cutoff (cluster (preprocess cfg s'))).rows : Multiset String)) := by
  have hp : (emitted cfg.cluster_cutoff (finalSequence cfg l)).Perm
      (emitted cfg.cluster_cutoff (finalSequence cfg l')) :=
    (finalSequence_perm cfg h).filter _
  refine ⟨Multiset.coe_eq_coe.mpr hp, ?_, ?_, ?_⟩
  · unfold run
    rw [select_eq, select_eq]
    exact Multiset.coe_eq_coe.mpr (hp.map formatRow)
  · unfold run
    rw [select_eq, select_eq]
    exact hp.length_eq
  · intro s s' hs hs' hsorted hsorted'
    rw [select_eq, select_eq, cluster_eq_clusterList, cluster_eq_clusterList,
      preprocess_eq_map, preprocess_eq_map]
    have hq := clusterList_preprocess_sorted_perm cfg s s' ((hs.trans h).trans hs'.symm)
      hsorted hsorted'
    have hq' : (emitted cfg.cluster_cutoff (clusterList (s.map (preprocessBody cfg)))).Perm
        (emitted cfg.cluster_cutoff (clusterList (s'.map (preprocessBody cfg)))) :=
      hq.filter _
    exact Multiset.coe_eq_coe.mpr (hq'.map formatRow)

/-- C2 at a concrete input: three records, two of them with the same anchors and the counts 1
and 5, given in two different orders. -/
theorem C2_witness :
    ((run scenarioA_cfg
        [{ scenarioA_p with count := 1 }, { scenarioA_p with count := 5 }, scenarioA_q]).rows :
      Multiset String) =
    ((run scenarioA_cfg
        [{ scenarioA_p with count := 5 }, { scenarioA_p with count := 1 }, scenarioA_q]).rows :
      Multiset String) :=
  (C2_order_invariance scenarioA_cfg _ _ (List.Perm.swap _ _ _)).2.1

/-- C7: `operator<` is the strict lexicographic order on
`(chrom1, start1, end1, chrom2, start2, end2)`, it does not read `count`, it is irreflexive and
transitive, two records are mutually non-less exactly when their six anchor fields agree, and
the sorting stage returns a permutation of its input (the same records, no field changed) in
which no record is less than a record before it. -/
theorem C7_total_order :
    (∀ p a : PET, PET.lt p a = true ↔
      (p.chrom1 < a.chrom1 ∨ (p.chrom1 = a.chrom1 ∧
        (p.start1 < a.start1 ∨ (p.start1 = a.start1 ∧
          (p.end1 < a.end1 ∨ (p.end1 = a.end1 ∧
            (p.chrom2 < a.chrom2 ∨ (p.chrom2 = a.chrom2 ∧
              (p.start2 < a.start2 ∨ (p.start2 = a.start2 ∧ p.end2 < a.end2))))))))))) ∧
    (∀ (p a : PET) (n m : Int),
      PET.lt { p with count := n } { a with count := m } = PET.lt p a) ∧
    (∀ p : PET, PET.lt p p = false) ∧
    (∀ p q r : PET, PET.lt p q = true → PET.lt q r = true → PET.lt p r = true) ∧
    (∀ p q : PET, (PET.lt p q = false ∧ PET.lt q p = false) ↔
      (p.chrom1 = q.chrom1 ∧ p.start1 = q.start1 ∧ p.end1 = q.end1 ∧
        p.chrom2 = q.chrom2 ∧ p.start2 = q.start2 ∧ p.end2 = q.end2)) ∧
    (∀ pets : List PET, (sortPETs pets).Perm pets ∧
      (sortPETs pets).Pairwise (fun a b => PET.lt b a = false)) := by
  refine ⟨?_, ?_, ?_, ?_, ?_, ?_⟩
  · intro p a
    rw [PET.lt_iff_lexKey]
    simp only [PET.lexKey, Prod.Lex.lt_iff]
  · intro p a n m
    rfl
  · intro p
    have h : ¬ PET.lt p p = true := by
      rw [PET.lt_iff_lexKey]
      exact lt_irrefl _
    simpa using h
  · intro p q r hpq hqr
    rw [PET.lt_iff_lexKey] at *
    exact lt_trans hpq hqr
  · intro p q
    rw [← PET.key_eq_iff]
    constructor
    · rintro ⟨h1, h2⟩
      exact key_eq_of_notAfter h2 h1
    · intro hk
      have hl : p.lexKey = q.lexKey := (PET.lexKey_eq_iff p q).mpr hk
      have e1 : ¬ PET.lt p q = true := by
        rw [PET.lt_iff_lexKey, hl]
        exact lt_irrefl _
      have e2 : ¬ PET.lt q p = true := by
        rw [PET.lt_iff_lexKey, hl]
        exact lt_irrefl _
      exact ⟨by simpa using e1, by simpa using e2⟩
  · intro pets
    exact ⟨sortPETs_perm pets, sortPETs_sorted pets⟩

/-- C8: endpoint-inclusive overlap. For a cluster interval `[a, b]` and a candidate interval
`[c, d]` with `a ≤ b` and `c ≤ d` that touch at an endpoint (`b = c` or `d = a`), the anchor-1
test and the anchor-2 test of the merge condition are both true. -/
theorem C8_endpoint_inclusive (cluster can : PET) (a b c d : Int) (hab : a ≤ b) (_hcd : c ≤ d)
    (htouch : b = c ∨ d = a) :
    overlap1 { cluster with start1 := a, end1 := b } { can with start1 := c, end1 := d } = true ∧
    overlap2 { cluster with start2 := a, end2 := b } { can with start2 := c, end2 := d } = true := by
  simp only [overlap1, overlap2, Bool.or_eq_true, Bool.and_eq_true, decide_eq_true_eq]
  rcases htouch with h | h
  · exact ⟨Or.inl ⟨by omega, by omega⟩, Or.inl ⟨by omega, by omega⟩⟩
  · exact ⟨Or.inr ⟨by omega, by omega⟩, Or.inr ⟨by omega, by omega⟩⟩

/-- C8 at concrete intervals: `[100, 200]` and `[200, 300]` touch at 200 and pass both
tests. -/
theorem C8_witness :
    overlap1 { scenarioA_p with start1 := 100, end1 := 200 }
      { scenarioA_q with start1 := 200, end1 := 300 } = true ∧
    overlap2 { scenarioA_p with start2 := 100, end2 := 200 }
      { scenarioA_q with start2 := 200, end2 := 300 } = true :=
  C8_endpoint_inclusive scenarioA_p scenarioA_q 100 200 200 300 (by decide) (by decide)
    (Or.inl rfl)

/-- C9, the code at the failing input: after sorting and preprocessing, record 1 has count 0
(its count 1 is below `pet_cutoff = 2`); one step of the inner loop with seed 0 and candidate 1
nevertheless takes the merge branch and widens record 0 from `[100,200] [5000,5100]` to
`[100,300] [5000,5200]`, and the widened row is what the program writes. -/
theorem C9_dead_candidate_widens_seed :
    preprocess deadCandidate_cfg (sortPETs deadCandidate_input) =
      [ { chrom1 := "chr1", start1 := 100, end1 := 200,
          chrom2 := "chr1", start2 := 5000, end2 := 5100, count := 5 },
        { chrom1 := "chr1", start1 := 150, end1 := 300,
          chrom2 := "chr1", start2 := 5050, end2 := 5200, count := 0 } ] ∧
    scanLoop 1 0 1 (preprocess deadCandidate_cfg (sortPETs deadCandidate_input)) =
      [ { chrom1 := "chr1", start1 := 100, end1 := 300,
          chrom2 := "chr1", start2 := 5000, end2 := 5200, count := 5 },
        { chrom1 := "chr1", start1 := 150, end1 := 300,
          chrom2 := "chr1", start2 := 5050, end2 := 5200, count := 0 } ] ∧
    (run deadCandidate_cfg deadCandidate_input).rows = ["chr1\t100\t300\tchr1\t5000\t5200\t5\n"] := by
  decide

/-! ## Further properties of the clustering pass -/

/-- The candidates keep their six anchor fields through a scan. -/
theorem scan_keys (l : List PET) : ∀ c : PET, (scan c l).2.map PET.key = l.map PET.key := by
  induction l with
  | nil => intro c; simp [scan_nil]
  | cons x xs ih =>
    intro c
    by_cases hb : pruneBreak c x = true
    · rw [scan_cons_break c x xs hb]
    · simp only [Bool.not_eq_true] at hb
      by_cases ho : overlaps c x = true
      · rw [scan_cons_merge c x xs hb ho]
        simp only [List.map_cons, ih]
        rw [show (zeroed x).key = x.key from rfl]
      · simp only [Bool.not_eq_true] at ho
        rw [scan_cons_skip c x xs hb ho]
        simp only [List.map_cons, ih]

theorem scan_mem_key {c : PET} {l : List PET} {x : PET} (hx : x ∈ (scan c l).2) :
    ∃ y ∈ l, y.key = x.key := by
  have h1 : x.key ∈ (scan c l).2.map PET.key := List.mem_map_of_mem _ hx
  rw [scan_keys] at h1
  obtain ⟨y, hy, hk⟩ := List.mem_map.mp h1
  exact ⟨y, hy, hk⟩

theorem key_chrom1 {x y : PET} (hk : x.key = y.key) : x.chrom1 = y.chrom1 :=
  ((PET.key_eq_iff x y).mp hk).1

/-- A scan stops at the first record of another chromosome, so what follows a block of
another chromosome is neither read nor written. -/
theorem scan_append_foreign (A : List PET) :
    ∀ (c : PET) (B : List PET), (∀ b ∈ B, b.chrom1 ≠ c.chrom1) →
      scan c (A ++ B) = ((scan c A).1, (scan c A).2 ++ B) := by
  induction A with
  | nil =>
    intro c B hB
    cases B with
    | nil => simp [scan_nil]
    | cons b B' =>
      have hb : pruneBreak c b = true := by
        simp [pruneBreak, hB b (List.mem_cons_self _ _)]
      simp [scan_nil, scan_cons_break c b B' hb]
  | cons x xs ih =>
    intro c B hB
    rw [List.cons_append]
    by_cases hb : pruneBreak c x = true
    · rw [scan_cons_break c x _ hb, scan_cons_break c x _ hb]
      simp
    · simp only [Bool.not_eq_true] at hb
      by_cases ho : overlaps c x = true
      · rw [scan_cons_merge c x _ hb ho, scan_cons_merge c x _ hb ho,
          ih (absorb c x) B (fun b hbB => hB b hbB)]
        simp
      · simp only [Bool.not_eq_true] at ho
        rw [scan_cons_skip c x _ hb ho, scan_cons_skip c x _ hb ho, ih c B hB]
        simp

theorem clusterList_append_aux :
    ∀ (n : Nat) (A B : List PET), A.length = n →
      (∀ a ∈ A, ∀ b ∈ B, a.chrom1 ≠ b.chrom1) →
      clusterList (A ++ B) = clusterList A ++ clusterList B := by
  intro n
  induction n with
  | zero =>
    intro A B hA _
    have : A = [] := List.length_eq_zero.mp hA
    subst this
    simp [clusterList_nil]
  | succ n ih =>
    intro A B hA h
    cases A with
    | nil => simp at hA
    | cons p rest =>
      have hlen : rest.length = n := by simpa using hA
      have hrest : ∀ a ∈ rest, ∀ b ∈ B, a.chrom1 ≠ b.chrom1 :=
        fun a ha => h a (List.mem_cons_of_mem _ ha)
      rw [List.cons_append]
      by_cases hc : p.count = 0
      · rw [clusterList_cons_zero p _ hc, clusterList_cons_zero p _ hc, ih rest B hlen hrest]
        simp
      · have hB : ∀ b ∈ B, b.chrom1 ≠ p.chrom1 :=
          fun b hb => (h p (List.mem_cons_self _ _) b hb).symm
        rw [clusterList_cons_seed p _ hc, clusterList_cons_seed p _ hc,
          scan_append_foreign rest p B hB]
        simp only
        rw [ih (scan p rest).2 B (by rw [scan_length]; exact hlen)]
        · simp
        · intro a ha b hb
          obtain ⟨y, hy, hk⟩ := scan_mem_key ha
          rw [← key_chrom1 hk]
          exact hrest y hy b hb

/-- A candidate whose second anchor strictly contains that of the cluster fails the anchor-2
test. -/
theorem overlap2_false_of_containing (cluster can : PET) (h1 : can.start2 < cluster.start2)
    (h2 : cluster.end2 < can.end2) : overlap2 cluster can = false := by
  have h : ¬ overlap2 cluster can = true := by
    simp only [overlap2, Bool.or_eq_true, Bool.and_eq_true, decide_eq_true_eq]
    omega
  simpa using h

/-! ## The claims, continued -/

/-- C13: chromosome independence. When no record of `A` has the `chrom1` of a record of `B`,
clustering `A ++ B` gives the clustering of `A` followed by the clustering of `B`. -/
theorem C13_chromosome_independence (A B : List PET)
    (h : ∀ a ∈ A, ∀ b ∈ B, a.chrom1 ≠ b.chrom1) :
    cluster (A ++ B) = cluster A ++ cluster B := by
  rw [cluster_eq_clusterList, cluster_eq_clusterList, cluster_eq_clusterList]
  exact clusterList_append_aux A.length A B rfl h

/-- C13 at a concrete input: two overlapping records on `chr1` followed by two on `chr2`. -/
theorem C13_witness :
    cluster (twoChrom_A ++ twoChrom_B) = cluster twoChrom_A ++ cluster twoChrom_B :=
  C13_chromosome_independence twoChrom_A twoChrom_B (by decide)

/-- C15, the code at the failing input: the two records intersect on both anchors, the
second anchor `[5000,5150]` of the candidate strictly contains the second anchor `[5050,5100]`
of the seed, the anchor-2 test is false, and the program writes two rows of count 5 where one
cluster of count 10 is expected. -/
theorem C15_containing_candidate_not_merged :
    preprocess scenarioA_cfg (sortPETs containing_input) = containing_input ∧
    overlap1 { chrom1 := "chr1", start1 := 100, end1 := 200,
               chrom2 := "chr1", start2 := 5050, end2 := 5100, count := 5 }
             { chrom1 := "chr1", start1 := 150, end1 := 250,
               chrom2 := "chr1", start2 := 5000, end2 := 5150, count := 5 } = true ∧
    overlap2 { chrom1 := "chr1", start1 := 100, end1 := 200,
               chrom2 := "chr1", start2 := 5050, end2 := 5100, count := 5 }
             { chrom1 := "chr1", start1 := 150, end1 := 250,
               chrom2 := "chr1", start2 := 5000, end2 := 5150, count := 5 } = false ∧
    (run scenarioA_cfg containing_input).rows =
      ["chr1\t100\t200\tchr1\t5050\t5100\t5\n", "chr1\t150\t250\tchr1\t5000\t5150\t5\n"] := by
  decide

/-- C20, the code at the failing input: under the default options the record on the contig
`chr1_KI270706v1_random` is written, and its row takes 77 bytes with the terminating zero,
more than the 64 bytes of `buff`. -/
theorem C20_row_exceeds_buffer :
    (run default_cfg longName_input).rows =
      ["chr1_KI270706v1_random\t99500\t101000\tchr1_KI270706v1_random\t149500\t151000\t12\n"] ∧
    (emitted default_cfg.cluster_cutoff (finalSequence default_cfg longName_input)).map
      sprintfBytes = [77] ∧
    buffSize < 77 := by
  decide

theorem specScanLoop_growing (fuel : Nat) :
    ∀ (i j : Nat) (s e : Int) (pets : List PET),
      specScanLoop false fuel i j s e pets = scanLoop fuel i j pets := by
  induction fuel with
  | zero => intro i j s e pets; rfl
  | succ n ih =>
    intro i j s e pets
    simp only [specScanLoop, scanLoop]
    cases pets[i]? with
    | none => rfl
    | some c =>
      cases pets[j]? with
      | none => rfl
      | some x =>
        have hov : (overlap1At c.start1 c.end1 x && overlap2 c x) = overlaps c x := rfl
        simp only [Bool.false_eq_true, if_false, hov, ih]

theorem specClusterLoop_growing (fuel : Nat) :
    ∀ (i : Nat) (pets : List PET), specClusterLoop false fuel i pets = clusterLoop fuel i pets := by
  induction fuel with
  | zero => intro i pets; rfl
  | succ n ih =>
    intro i pets
    simp only [specClusterLoop, clusterLoop]
    cases pets[i]? with
    | none => rfl
    | some p => simp only [ih, specScanLoop_growing]

/-- C14 (amended): the anchor-1 test reads the bounds record `i` holds at that moment, widened
by the merges made earlier in the same scan (`cluster` is a reference to `pets[i]`): for every
sequence the clustering pass equals the growing-bound variant of the spec, and so does every
single scan, whatever snapshot is handed to it. -/
theorem C14_growing_seed_bound (pets : List PET) :
    cluster pets = specCluster false pets ∧
    (∀ (fuel i j : Nat) (seedStart1 seedEnd1 : Int),
      scanLoop fuel i j pets = specScanLoop false fuel i j seedStart1 seedEnd1 pets) := by
  refine ⟨?_, ?_⟩
  · unfold cluster specCluster
    rw [specClusterLoop_growing]
  · intro fuel i j s e
    rw [specScanLoop_growing]

/-- C14 as stated fails: `chained_input` is sorted and preprocessed; the code merges all three
records into `[100,400]` with count 6, because the third record starts inside the widened
first anchor `[100,300]`; the variant with the snapshot `[100,200]` leaves the third record
alone. -/
theorem C14_counterexample :
    preprocess scenarioA_cfg (sortPETs chained_input) = chained_input ∧
    cluster chained_input =
      [ { chrom1 := "chr1", start1 := 100, end1 := 400,
          chrom2 := "chr1", start2 := 5000, end2 := 5100, count := 6 },
        { chrom1 := "chr1", start1 := 150, end1 := 300,
          chrom2 := "chr1", start2 := 5000, end2 := 5100, count := 0 },
        { chrom1 := "chr1", start1 := 250, end1 := 400,
          chrom2 := "chr1", start2 := 5000, end2 := 5100, count := 0 } ] ∧
    specCluster true chained_input =
      [ { chrom1 := "chr1", start1 := 100, end1 := 300,
          chrom2 := "chr1", start2 := 5000, end2 := 5100, count := 4 },
        { chrom1 := "chr1", start1 := 150, end1 := 300,
          chrom2 := "chr1", start2 := 5000, end2 := 5100, count := 0 },
        { chrom1 := "chr1", start1 := 250, end1 := 400,
          chrom2 := "chr1", start2 := 5000, end2 := 5100, count := 2 } ] ∧
    cluster chained_input ≠ specCluster true chained_input := by
  decide

/-! ## The order by `(chrom1, start1)` during the pass -/

theorem ordered_iff_map (l : List PET) :
    OrderedByChromStart l ↔
      (l.map chromStart).Pairwise (fun a b => a.1 < b.1 ∨ (a.1 = b.1 ∧ a.2 ≤ b.2)) := by
  unfold OrderedByChromStart
  rw [List.pairwise_map]
  rfl

theorem ordered_of_map_eq {S S' : List PET} (h : S'.map chromStart = S.map chromStart)
    (ho : OrderedByChromStart S) : OrderedByChromStart S' := by
  rw [ordered_iff_map] at *
  rw [h]
  exact ho

theorem scanFull_nil (c : PET) : scanFull c [] = (c, []) := by
  simp [scanFull]

theorem scanFull_cons_merge (c can : PET) (rest : List PET)
    (h : (decide (can.chrom1 = c.chrom1) && overlaps c can) = true) :
    scanFull c (can :: rest) =
      ((scanFull (absorb c can) rest).1, zeroed can :: (scanFull (absorb c can) rest).2) := by
  rw [scanFull, if_pos h]

theorem scanFull_cons_skip (c can : PET) (rest : List PET)
    (h : (decide (can.chrom1 = c.chrom1) && overlaps c can) = false) :
    scanFull c (can :: rest) = ((scanFull c rest).1, can :: (scanFull c rest).2) := by
  rw [scanFull, if_neg (by simp [h])]

theorem scanFull_length (l : List PET) : ∀ c : PET, (scanFull c l).2.length = l.length := by
  induction l with
  | nil => intro c; simp [scanFull_nil]
  | cons x xs ih =>
    intro c
    by_cases h : (decide (x.chrom1 = c.chrom1) && overlaps c x) = true
    · rw [scanFull_cons_merge c x xs h]
      simp [ih]
    · simp only [Bool.not_eq_true] at h
      rw [scanFull_cons_skip c x xs h]
      simp [ih]

theorem clusterListFull_nil : clusterListFull [] = [] := by
  rw [clusterListFull]

theorem clusterListFull_cons_zero (p : PET) (rest : List PET) (h : p.count = 0) :
    clusterListFull (p :: rest) = p :: clusterListFull rest := by
  rw [clusterListFull, if_pos h]

theorem clusterListFull_cons_seed (p : PET) (rest : List PET) (h : p.count ≠ 0) :
    clusterListFull (p :: rest) =
      (scanFull p rest).1 :: clusterListFull (scanFull p rest).2 := by
  rw [clusterListFull, if_neg h]

theorem scanLoopFull_spec :
    ∀ (rest : List PET) (fuel : Nat) (pre : List PET) (c : PET) (mid : List PET),
      rest.length ≤ fuel →
      scanLoopFull fuel pre.length (pre.length + 1 + mid.length) (pre ++ c :: (mid ++ rest)) =
        pre ++ (scanFull c rest).1 :: (mid ++ (scanFull c rest).2) := by
  intro rest
  induction rest with
  | nil =>
    intro fuel pre c mid _
    have hj : (pre ++ c :: (mid ++ []))[pre.length + 1 + mid.length]? = none := by
      apply List.getElem?_eq_none
      simp
      omega
    cases fuel with
    | zero => simp [scanLoopFull, scanFull_nil]
    | succ n =>
      simp only [scanLoopFull, hj, scanFull_nil]
      split <;> simp_all
  | cons can rest ih =>
    intro fuel pre c mid h
    cases fuel with
    | zero => simp at h
    | succ n =>
      have hlen : rest.length ≤ n := by simpa using h
      have hi : (pre ++ c :: (mid ++ can :: rest))[pre.length]? = some c :=
        getElem?_at_length pre c _
      have hj : (pre ++ c :: (mid ++ can :: rest))[pre.length + 1 + mid.length]? = some can := by
        have := getElem?_at (pre ++ c :: mid) can rest (pre.length + 1 + mid.length)
          (by simp; omega)
        simpa only [List.append_assoc, List.cons_append] using this
      simp only [scanLoopFull, hi, hj]
      by_cases hm : (decide (can.chrom1 = c.chrom1) && overlaps c can) = true
      · rw [if_pos hm, scanFull_cons_merge c can rest hm]
        have hset : ((pre ++ c :: (mid ++ can :: rest)).set pre.length (absorb c can)).set
            (pre.length + 1 + mid.length) (zeroed can) =
            pre ++ absorb c can :: ((mid ++ [zeroed can]) ++ rest) := by
          rw [set_at_length]
          have := set_at (pre ++ absorb c can :: mid) can (zeroed can) rest
            (pre.length + 1 + mid.length) (by simp; omega)
          simpa only [List.append_assoc, List.cons_append, List.singleton_append,
            List.nil_append] using this
        rw [hset]
        have step := ih n pre (absorb c can) (mid ++ [zeroed can]) hlen
        simp only [List.length_append, List.length_singleton] at step
        rw [show pre.length + 1 + mid.length + 1 = pre.length + 1 + (mid.length + 1) by omega,
          step]
        simp
      · rw [if_neg hm]
        simp only [Bool.not_eq_true] at hm
        rw [scanFull_cons_skip c can rest hm]
        have step := ih n pre c (mid ++ [can]) hlen
        simp only [List.length_append, List.length_singleton, List.append_assoc,
          List.singleton_append] at step
        rw [show pre.length + 1 + mid.length + 1 = pre.length + 1 + (mid.length + 1) by omega,
          step]

theorem clusterLoopFull_spec :
    ∀ (fuel : Nat) (pre rest : List PET), rest.length ≤ fuel →
      clusterLoopFull fuel pre.length (pre ++ rest) = pre ++ clusterListFull rest := by
  intro fuel
  induction fuel with
  | zero =>
    intro pre rest h
    have : rest = [] := List.length_eq_zero.mp (Nat.le_zero.mp h)
    subst this
    simp [clusterLoopFull, clusterListFull_nil]
  | succ n ih =>
    intro pre rest h
    cases rest with
    | nil => simp [clusterLoopFull, clusterListFull_nil]
    | cons x xs =>
      have hlen : xs.length ≤ n := by simpa using h
      simp only [clusterLoopFull, getElem?_at_length]
      by_cases hc : x.count = 0
      · rw [if_pos hc, clusterListFull_cons_zero x xs hc]
        have step := ih (pre ++ [x]) xs hlen
        simpa using step
      · rw [if_neg hc, clusterListFull_cons_seed x xs hc]
        have hs := scanLoopFull_spec xs (pre ++ x :: xs).length pre x [] (by simp; omega)
        simp only [List.length_nil, Nat.add_zero, List.nil_append] at hs
        rw [hs]
        have step := ih (pre ++ [(scanFull x xs).1]) (scanFull x xs).2
          (by rw [scanFull_length]; exact hlen)
        simpa using step

/-- The unpruned loops compute `clusterListFull`. -/
theorem clusterFull_eq_clusterListFull (pets : List PET) :
    clusterFull pets = clusterListFull pets := by
  have h := clusterLoopFull_spec pets.length [] pets (Nat.le_refl _)
  simpa [clusterFull] using h

theorem scanFull_inert (c : PET) :
    ∀ l : List PET, (∀ y ∈ l, (decide (y.chrom1 = c.chrom1) && overlaps c y) = false) →
      scanFull c l = (c, l) := by
  intro l
  induction l with
  | nil => intro _; exact scanFull_nil c
  | cons x xs ih =>
    intro h
    rw [scanFull_cons_skip c x xs (h x (List.mem_cons_self _ _)),
      ih (fun y hy => h y (List.mem_cons_of_mem _ hy))]

/-- Past a pruning break nothing of the cluster's chromosome passes the anchor-1 test, as
long as the records there have `start1 ≤ end1`. -/
theorem no_merge_past_break (c x y : PET)
    (hcx : c.chrom1 < x.chrom1 ∨ (c.chrom1 = x.chrom1 ∧ c.start1 ≤ x.start1))
    (hxy : x.chrom1 < y.chrom1 ∨ (x.chrom1 = y.chrom1 ∧ x.start1 ≤ y.start1))
    (hb : pruneBreak c x = true) (hwf : y.start1 ≤ y.end1) :
    (decide (y.chrom1 = c.chrom1) && overlaps c y) = false := by
  by_cases hch : y.chrom1 = c.chrom1
  · have hstart : c.end1 < y.start1 := by
      have hb' : x.start1 > c.end1 ∨ x.chrom1 ≠ c.chrom1 := by
        simpa [pruneBreak] using hb
      rcases hb' with hb' | hb'
      · rcases hxy with h | ⟨_, h⟩
        · rcases hcx with h' | ⟨h', _⟩
          · rw [hch] at h
            exact absurd (lt_trans h' h) (lt_irrefl _)
          · rw [hch, h'] at h
            exact absurd h (lt_irrefl _)
        · omega
      · rcases hcx with h' | ⟨h', _⟩
        · rcases hxy with h | ⟨h, _⟩
          · rw [hch] at h
            exact absurd (lt_trans h' h) (lt_irrefl _)
          · rw [h, hch] at h'
            exact absurd h' (lt_irrefl _)
        · exact absurd h'.symm hb'
    have h1 : ¬ overlap1 c y = true := by
      simp only [overlap1, Bool.or_eq_true, Bool.and_eq_true, decide_eq_true_eq]
      omega
    simp only [Bool.not_eq_true] at h1
    simp [overlaps, h1]
  · simp [hch]

/-- On a sequence ordered by `(chrom1, start1)` whose candidates have `start1 ≤ end1`, a
scan with the pruning break and a scan to the end of the sequence do the same. -/
theorem scan_eq_scanFull (rest : List PET) :
    ∀ c : PET, OrderedByChromStart (c :: rest) → (∀ y ∈ rest, y.start1 ≤ y.end1) →
      scan c rest = scanFull c rest := by
  induction rest with
  | nil => intro c _ _; rw [scan_nil, scanFull_nil]
  | cons x xs ih =>
    intro c ho hwf
    have hpw : (c :: x :: xs).Pairwise
        (fun a b => a.chrom1 < b.chrom1 ∨ (a.chrom1 = b.chrom1 ∧ a.start1 ≤ b.start1)) := ho
    rw [List.pairwise_cons] at hpw
    obtain ⟨hc, hxs⟩ := hpw
    have hcx := hc x (List.mem_cons_self _ _)
    have hxs' := hxs
    rw [List.pairwise_cons] at hxs'
    obtain ⟨hx, hrest⟩ := hxs'
    have hwf' : ∀ y ∈ xs, y.start1 ≤ y.end1 := fun y hy => hwf y (List.mem_cons_of_mem _ hy)
    have hcxs : OrderedByChromStart (c :: xs) :=
      List.pairwise_cons.mpr ⟨fun y hy => hc y (List.mem_cons_of_mem _ hy), hrest⟩
    by_cases hb : pruneBreak c x = true
    · rw [scan_cons_break c x xs hb]
      symm
      apply scanFull_inert
      intro y hy
      rcases List.mem_cons.mp hy with rfl | hy'
      · exact no_merge_past_break c y y hcx (Or.inr ⟨rfl, le_refl _⟩) hb
          (hwf y (List.mem_cons_self _ _))
      · exact no_merge_past_break c x y hcx (hx y hy') hb (hwf' y hy')
    · simp only [Bool.not_eq_true] at hb
      obtain ⟨_, hch⟩ := (pruneBreak_eq_false_iff c x).mp hb
      by_cases hov : overlaps c x = true
      · have hm : (decide (x.chrom1 = c.chrom1) && overlaps c x) = true := by
          simp [hch, hov]
        have hstart : c.start1 ≤ x.start1 := by
          rcases hcx with h | ⟨_, h⟩
          · rw [hch] at h
            exact absurd h (lt_irrefl _)
          · exact h
        have hmap : (absorb c x :: xs).map chromStart = (c :: xs).map chromStart := by
          simp [chromStart, absorb, min_eq_left hstart]
        rw [scan_cons_merge c x xs hb hov, scanFull_cons_merge c x xs hm,
          ih (absorb c x) (ordered_of_map_eq hmap hcxs) hwf']
      · simp only [Bool.not_eq_true] at hov
        have hm : (decide (x.chrom1 = c.chrom1) && overlaps c x) = false := by
          simp [hov]
        rw [scan_cons_skip c x xs hb hov, scanFull_cons_skip c x xs hm, ih c hcxs hwf']

theorem key_chromStart {x y : PET} (hk : x.key = y.key) : chromStart x = chromStart y := by
  obtain ⟨h1, h2, _, _, _, _⟩ := (PET.key_eq_iff x y).mp hk
  simp [chromStart, h1, h2]

theorem map_chromStart_of_keys {l l' : List PET} (h : l'.map PET.key = l.map PET.key) :
    l'.map chromStart = l.map chromStart := by
  induction l generalizing l' with
  | nil =>
    cases l' with
    | nil => rfl
    | cons a t => simp at h
  | cons x xs ih =>
    cases l' with
    | nil => simp at h
    | cons a t =>
      simp only [List.map_cons, List.cons.injEq] at h ⊢
      exact ⟨key_chromStart h.1, ih h.2⟩

theorem clusterList_eq_full_aux :
    ∀ (n : Nat) (l : List PET), l.length = n → OrderedByChromStart l →
      (∀ y ∈ l, y.start1 ≤ y.end1) → clusterList l = clusterListFull l := by
  intro n
  induction n with
  | zero =>
    intro l hl _ _
    have : l = [] := List.length_eq_zero.mp hl
    subst this
    rw [clusterList_nil, clusterListFull_nil]
  | succ n ih =>
    intro l hl ho hwf
    cases l with
    | nil => simp at hl
    | cons p rest =>
      have hlen : rest.length = n := by simpa using hl
      have horest : OrderedByChromStart rest := List.Pairwise.of_cons ho
      have hwfrest : ∀ y ∈ rest, y.start1 ≤ y.end1 :=
        fun y hy => hwf y (List.mem_cons_of_mem _ hy)
      by_cases hc : p.count = 0
      · rw [clusterList_cons_zero p rest hc, clusterListFull_cons_zero p rest hc,
          ih rest hlen horest hwfrest]
      · rw [clusterList_cons_seed p rest hc, clusterListFull_cons_seed p rest hc,
          ← scan_eq_scanFull rest p ho hwfrest]
        rw [ih (scan p rest).2 (by rw [scan_length]; exact hlen)
          (ordered_of_map_eq (map_chromStart_of_keys (scan_keys rest p)) horest)]
        intro y hy
        obtain ⟨z, hz, hk⟩ := scan_mem_key hy
        obtain ⟨_, k2, k3, _, _, _⟩ := (PET.key_eq_iff z y).mp hk
        rw [← k2, ← k3]
        exact hwfrest z hz

/-- C19: on a sequence ordered by `(chrom1, start1)` in which every record has
`start1 ≤ end1`, the clustering pass with the pruning break gives exactly the final sequence
of the pass that visits every `j > i` and merges `j` into seed `i` whenever `j` has the
cluster's `chrom1` and passes the both-anchor test. -/
theorem C19_pruned_eq_unpruned (pets : List PET)
    (ho : pets.Pairwise
      (fun a b => a.chrom1 < b.chrom1 ∨ (a.chrom1 = b.chrom1 ∧ a.start1 ≤ b.start1)))
    (hwf : ∀ p ∈ pets, p.start1 ≤ p.end1) :
    cluster pets = clusterFull pets := by
  rw [cluster_eq_clusterList, clusterFull_eq_clusterListFull]
  exact clusterList_eq_full_aux pets.length pets rfl ho hwf

/-- C19 at a concrete input: the three chained records, ordered and well-formed. -/
theorem C19_witness : cluster chained_input = clusterFull chained_input :=
  C19_pruned_eq_unpruned chained_input (by simp [chained_input]) (by decide)

/-! ## The merges of a pass -/

theorem scanLog_nil (j : Nat) (c : PET) : scanLog j c [] = [] := by
  simp [scanLog]

theorem scanLog_cons_break (j : Nat) (c can : PET) (rest : List PET)
    (h : pruneBreak c can = true) : scanLog j c (can :: rest) = [] := by
  simp [scanLog, h]

theorem scanLog_cons_merge (j : Nat) (c can : PET) (rest : List PET)
    (hb : pruneBreak c can = false) (ho : overlaps c can = true) :
    scanLog j c (can :: rest) = j :: scanLog (j + 1) (absorb c can) rest := by
  simp [scanLog, hb, ho]

theorem scanLog_cons_skip (j : Nat) (c can : PET) (rest : List PET)
    (hb : pruneBreak c can = false) (ho : overlaps c can = false) :
    scanLog j c (can :: rest) = scanLog (j + 1) c rest := by
  simp [scanLog, hb, ho]

theorem clusterLogList_nil (i : Nat) : clusterLogList i [] = [] := by
  rw [clusterLogList]

theorem clusterLogList_cons_zero (i : Nat) (p : PET) (rest : List PET) (h : p.count = 0) :
    clusterLogList i (p :: rest) = clusterLogList (i + 1) rest := by
  rw [clusterLogList, if_pos h]

theorem clusterLogList_cons_seed (i : Nat) (p : PET) (rest : List PET) (h : p.count ≠ 0) :
    clusterLogList i (p :: rest) =
      (i, scanLog (i + 1) p rest) :: clusterLogList (i + 1) (scan p rest).2 := by
  rw [clusterLogList, if_neg h]

theorem scanLoopLog_spec :
    ∀ (rest : List PET) (fuel : Nat) (pre : List PET) (c : PET) (mid : List PET)
      (log : List Nat), rest.length ≤ fuel →
      scanLoopLog fuel pre.length (pre.length + 1 + mid.length) (pre ++ c :: (mid ++ rest)) log =
        (pre ++ (scan c rest).1 :: (mid ++ (scan c rest).2),
          log ++ scanLog (pre.length + 1 + mid.length) c rest) := by
  intro rest
  induction rest with
  | nil =>
    intro fuel pre c mid log _
    have hj : (pre ++ c :: (mid ++ []))[pre.length + 1 + mid.length]? = none := by
      apply List.getElem?_eq_none
      simp
      omega
    cases fuel with
    | zero => simp [scanLoopLog, scan_nil, scanLog_nil]
    | succ n =>
      simp only [scanLoopLog, hj, scan_nil, scanLog_nil]
      split <;> simp_all
  | cons can rest ih =>
    intro fuel pre c mid log h
    cases fuel with
    | zero => simp at h
    | succ n =>
      have hlen : rest.length ≤ n := by simpa using h
      have hi : (pre ++ c :: (mid ++ can :: rest))[pre.length]? = some c :=
        getElem?_at_length pre c _
      have hj : (pre ++ c :: (mid ++ can :: rest))[pre.length + 1 + mid.length]? = some can := by
        have := getElem?_at (pre ++ c :: mid) can rest (pre.length + 1 + mid.length)
          (by simp; omega)
        simpa only [List.append_assoc, List.cons_append] using this
      simp only [scanLoopLog, hi, hj]
      by_cases hb : pruneBreak c can = true
      · rw [if_pos hb, scan_cons_break c can rest hb, scanLog_cons_break _ c can rest hb]
        simp
      · rw [if_neg hb]
        simp only [Bool.not_eq_true] at hb
        by_cases ho : overlaps c can = true
        · rw [if_pos ho, scan_cons_merge c can rest hb ho, scanLog_cons_merge _ c can rest hb ho]
          have hset : ((pre ++ c :: (mid ++ can :: rest)).set pre.length (absorb c can)).set
              (pre.length + 1 + mid.length) (zeroed can) =
              pre ++ absorb c can :: ((mid ++ [zeroed can]) ++ rest) := by
            rw [set_at_length]
            have := set_at (pre ++ absorb c can :: mid) can (zeroed can) rest
              (pre.length + 1 + mid.length) (by simp; omega)
            simpa only [List.append_assoc, List.cons_append, List.singleton_append,
              List.nil_append] using this
          rw [hset]
          have step := ih n pre (absorb c can) (mid ++ [zeroed can])
            (log ++ [pre.length + 1 + mid.length]) hlen
          simp only [List.length_append, List.length_singleton] at step
          rw [show pre.length + 1 + mid.length + 1 = pre.length + 1 + (mid.length + 1) by omega,
            step]
          simp
        · rw [if_neg ho]
          simp only [Bool.not_eq_true] at ho
          rw [scan_cons_skip c can rest hb ho, scanLog_cons_skip _ c can rest hb ho]
          have step := ih n pre c (mid ++ [can]) log hlen
          simp only [List.length_append, List.length_singleton, List.append_assoc,
            List.singleton_append] at step
          rw [show pre.length + 1 + mid.length + 1 = pre.length + 1 + (mid.length + 1) by omega,
            step]

theorem clusterLoopLog_spec :
    ∀ (fuel : Nat) (pre rest : List PET) (log : List (Nat × List Nat)), rest.length ≤ fuel →
      clusterLoopLog fuel pre.length (pre ++ rest) log =
        (pre ++ clusterList rest, log ++ clusterLogList pre.length rest) := by
  intro fuel
  induction fuel with
  | zero =>
    intro pre rest log h
    have : rest = [] := List.length_eq_zero.mp (Nat.le_zero.mp h)
    subst this
    simp [clusterLoopLog, clusterList_nil, clusterLogList_nil]
  | succ n ih =>
    intro pre rest log h
    cases rest with
    | nil => simp [clusterLoopLog, clusterList_nil, clusterLogList_nil]
    | cons x xs =>
      have hlen : xs.length ≤ n := by simpa using h
      simp only [clusterLoopLog, getElem?_at_length]
      by_cases hc : x.count = 0
      · rw [if_pos hc, clusterList_cons_zero x xs hc, clusterLogList_cons_zero _ x xs hc]
        have step := ih (pre ++ [x]) xs log hlen
        simpa using step
      · rw [if_neg hc, clusterList_cons_seed x xs hc, clusterLogList_cons_seed _ x xs hc]
        have hs := scanLoopLog_spec xs (pre ++ x :: xs).length pre x [] [] (by simp; omega)
        simp only [List.length_nil, Nat.add_zero, List.nil_append] at hs
        rw [hs]
        have step := ih (pre ++ [(scan x xs).1]) (scan x xs).2
          (log ++ [(pre.length, scanLog (pre.length + 1) x xs)])
          (by rw [scan_length]; exact hlen)
        simpa using step

/-- The instrumented loops compute the same sequence as the plain loops, and their log is
`clusterLogList`. -/
theorem clusterLoopLog_eq (pets : List PET) :
    clusterLoopLog pets.length 0 pets [] = (cluster pets, clusterLogList 0 pets) := by
  have h := clusterLoopLog_spec pets.length [] pets [] (Nat.le_refl _)
  rw [cluster_eq_clusterList]
  simpa using h

theorem clusterLog_eq (pets : List PET) : clusterLog pets = clusterLogList 0 pets := by
  unfold clusterLog
  rw [clusterLoopLog_eq]

theorem overlaps_key_congr {c c' x x' : PET} (hc : c'.key = c.key) (hx : x'.key = x.key) :
    overlaps c' x' = overlaps c x := by
  obtain ⟨_, c2, c3, _, c5, c6⟩ := (PET.key_eq_iff c' c).mp hc
  obtain ⟨_, x2, x3, _, x5, x6⟩ := (PET.key_eq_iff x' x).mp hx
  simp [overlaps, overlap1, overlap2, c2, c3, c5, c6, x2, x3, x5, x6]

theorem absorb_key_congr {c c' x x' : PET} (hc : c'.key = c.key) (hx : x'.key = x.key) :
    (absorb c' x').key = (absorb c x).key := by
  obtain ⟨c1, c2, c3, c4, c5, c6⟩ := (PET.key_eq_iff c' c).mp hc
  obtain ⟨_, x2, x3, _, x5, x6⟩ := (PET.key_eq_iff x' x).mp hx
  simp [PET.key, absorb, c1, c2, c3, c4, c5, c6, x2, x3, x5, x6]

theorem lookup_shift {g : Nat → Option PET} {j : Nat} {x : PET} {rest : List PET}
    (hg : ∀ t, (g (j + t)).map PET.key = ((x :: rest)[t]?).map PET.key) :
    ∀ t, (g (j + 1 + t)).map PET.key = (rest[t]?).map PET.key := by
  intro t
  have h := hg (t + 1)
  rw [show j + 1 + t = j + (t + 1) by omega]
  simpa using h

theorem lookup_head {g : Nat → Option PET} {j : Nat} {x : PET} {rest : List PET}
    (hg : ∀ t, (g (j + t)).map PET.key = ((x :: rest)[t]?).map PET.key) :
    ∃ y, g j = some y ∧ y.key = x.key := by
  have h := hg 0
  simp only [Nat.add_zero, List.getElem?_cons_zero, Option.map_some'] at h
  cases hgj : g j with
  | none => rw [hgj] at h; simp at h
  | some y =>
    rw [hgj] at h
    simp only [Option.map_some', Option.some.injEq] at h
    exact ⟨y, rfl, h⟩

/-- Every candidate merged by a scan passes the merge condition against the seed widened by
the candidates merged before it in the same scan; `g` looks the records up by index, up to
their counts. -/
theorem scanLog_sound (rest : List PET) :
    ∀ (j : Nat) (c c0 : PET) (g : Nat → Option PET), c0.key = c.key →
      (∀ t, (g (j + t)).map PET.key = (rest[t]?).map PET.key) →
      ∀ (pre : List Nat) (k : Nat) (post : List Nat), scanLog j c rest = pre ++ k :: post →
        j ≤ k ∧ ∃ x, g k = some x ∧
          overlaps (List.foldl absorb c0 (pre.filterMap g)) x = true := by
  induction rest with
  | nil =>
    intro j c c0 g _ _ pre k post h
    rw [scanLog_nil] at h
    simp at h
  | cons can rest ih =>
    intro j c c0 g hc hg pre k post h
    obtain ⟨y, hy, hyk⟩ := lookup_head hg
    have hg' := lookup_shift hg
    by_cases hb : pruneBreak c can = true
    · rw [scanLog_cons_break j c can rest hb] at h
      simp at h
    · simp only [Bool.not_eq_true] at hb
      by_cases ho : overlaps c can = true
      · rw [scanLog_cons_merge j c can rest hb ho] at h
        cases pre with
        | nil =>
          simp only [List.nil_append, List.cons.injEq] at h
          obtain ⟨hk, _⟩ := h
          subst hk
          refine ⟨Nat.le_refl _, y, hy, ?_⟩
          simp only [List.filterMap_nil, List.foldl_nil]
          rw [overlaps_key_congr hc hyk]
          exact ho
        | cons p0 pre' =>
          simp only [List.cons_append, List.cons.injEq] at h
          obtain ⟨hp0, h'⟩ := h
          subst hp0
          obtain ⟨hle, x, hx, hov⟩ := ih (j + 1) (absorb c can) (absorb c0 y) g
            (absorb_key_congr hc hyk) hg' pre' k post h'
          refine ⟨by omega, x, hx, ?_⟩
          rw [List.filterMap_cons_some hy, List.foldl_cons]
          exact hov
      · simp only [Bool.not_eq_true] at ho
        rw [scanLog_cons_skip j c can rest hb ho] at h
        obtain ⟨hle, x, hx, hov⟩ := ih (j + 1) c c0 g hc hg' pre k post h
        exact ⟨by omega, x, hx, hov⟩

theorem clusterLogList_sound :
    ∀ (n : Nat) (R : List PET) (b : Nat) (g : Nat → Option PET), R.length = n →
      (∀ t, (g (b + t)).map PET.key = (R[t]?).map PET.key) →
      ∀ (i : Nat) (js : List Nat), (i, js) ∈ clusterLogList b R →
        ∀ (pre : List Nat) (k : Nat) (post : List Nat), js = pre ++ k :: post →
          i < k ∧ ∃ s x, g i = some s ∧ g k = some x ∧
            overlaps (List.foldl absorb s (pre.filterMap g)) x = true := by
  intro n
  induction n with
  | zero =>
    intro R b g hR _ i js hmem
    have : R = [] := List.length_eq_zero.mp hR
    subst this
    rw [clusterLogList_nil] at hmem
    simp at hmem
  | succ n ih =>
    intro R b g hR hg i js hmem pre k post hsplit
    cases R with
    | nil => simp at hR
    | cons p rest =>
      have hlen : rest.length = n := by simpa using hR
      have hg' := lookup_shift hg
      by_cases hc : p.count = 0
      · rw [clusterLogList_cons_zero b p rest hc] at hmem
        exact ih rest (b + 1) g hlen hg' i js hmem pre k post hsplit
      · rw [clusterLogList_cons_seed b p rest hc] at hmem
        rcases List.mem_cons.mp hmem with heq | htail
        · simp only [Prod.mk.injEq] at heq
          obtain ⟨hi, hjs⟩ := heq
          subst hi
          obtain ⟨s, hs, hsk⟩ := lookup_head hg
          obtain ⟨hle, x, hx, hov⟩ := scanLog_sound rest (i + 1) p s g hsk hg' pre k post
            (hjs ▸ hsplit)
          exact ⟨by omega, s, x, hs, hx, hov⟩
        · have hg'' : ∀ t, (g (b + 1 + t)).map PET.key =
              ((scan p rest).2[t]?).map PET.key := by
            intro t
            rw [hg' t, ← List.getElem?_map, ← List.getElem?_map, scan_keys]
          exact ih (scan p rest).2 (b + 1) g (by rw [scan_length]; exact hlen) hg'' i js htail
            pre k post hsplit

/-- Every merge of a pass: the candidate comes after the seed, and with the bounds it has in
the input of the pass it passes the merge condition against the seed's input record widened
by the candidates merged before it in the same scan. -/
theorem clusterLog_sound (pets : List PET) (i : Nat) (js : List Nat)
    (hmem : (i, js) ∈ clusterLog pets) (pre : List Nat) (k : Nat) (post : List Nat)
    (hsplit : js = pre ++ k :: post) :
    i < k ∧ ∃ s x, pets[i]? = some s ∧ pets[k]? = some x ∧
      overlaps (List.foldl absorb s (pre.filterMap (fun m => pets[m]?))) x = true := by
  rw [clusterLog_eq] at hmem
  exact clusterLogList_sound pets.length pets 0 (fun m => pets[m]?) rfl
    (fun t => by simp) i js hmem pre k post hsplit

/-- C12 (amended): take the re-sorted output of a first clustering pass and run the pass on it
again. The instrumented pass computes the same sequence as the plain pass, and whenever the
merge branch is taken for seed `i` and candidate `j`, `j` comes after `i` and record `j`, with
the bounds it has in that re-sorted output, passes the both-anchor test against record `i` of
that output widened by the candidates `pre` merged before `j` in the same scan; for the first
merge of a scan this is the test between the two records as they stand in that output. -/
theorem C12_second_pass_merges (first : List PET) (i : Nat) (js pre : List Nat) (j : Nat)
    (post : List Nat) (hmem : (i, js) ∈ clusterLog (secondPassInput first))
    (hsplit : js = pre ++ j :: post) :
    (clusterLoopLog (secondPassInput first).length 0 (secondPassInput first) []).1 =
      cluster (secondPassInput first) ∧
    i < j ∧
    ∃ s x, (secondPassInput first)[i]? = some s ∧ (secondPassInput first)[j]? = some x ∧
      overlaps (List.foldl absorb s (pre.filterMap (fun m => (secondPassInput first)[m]?))) x
        = true ∧
      (pre = [] → overlaps s x = true) := by
  obtain ⟨hlt, s, x, hs, hx, hov⟩ :=
    clusterLog_sound (secondPassInput first) i js hmem pre j post hsplit
  refine ⟨by rw [clusterLoopLog_eq], hlt, s, x, hs, hx, hov, ?_⟩
  intro hpre
  subst hpre
  simpa using hov

/-- C12 at a concrete input: in the second pass over `secondPass_input`, candidate 2 is merged
into seed 0 after candidate 1, and it passes the test against record 0 widened by record 1. -/
theorem C12_witness :
    (0 : Nat) < 2 ∧
    ∃ s x, (secondPassInput secondPass_input)[0]? = some s ∧
      (secondPassInput secondPass_input)[2]? = some x ∧
      overlaps (List.foldl absorb s
        ([1].filterMap (fun m => (secondPassInput secondPass_input)[m]?))) x = true ∧
      (([1] : List Nat) = [] → overlaps s x = true) :=
  (C12_second_pass_merges secondPass_input 0 [1, 2, 3] [1] 2 [3] (by decide) rfl).2

/-- C12 as stated fails: `secondPass_input` is sorted and preprocessed; the first pass merges
record 3 into record 0 and leaves records 1 and 2 alone; the re-sorted output keeps the order;
the second pass merges records 1, 2 and 3 into seed 0, and records 0 and 2 do not pass the
both-anchor test with the bounds they have in that output (second anchors `[6000,6060]` and
`[6150,6300]`): record 2 is merged because record 1 has widened the seed to `[6000,6200]`. -/
theorem C12_counterexample :
    preprocess scenarioA_cfg (sortPETs secondPass_input) = secondPass_input ∧
    secondPassInput secondPass_input =
      [ { chrom1 := "chr1", start1 := 0, end1 := 100,
          chrom2 := "chr1", start2 := 6000, end2 := 6060, count := 4 },
        { chrom1 := "chr1", start1 := 10, end1 := 20,
          chrom2 := "chr1", start2 := 6050, end2 := 6200, count := 2 },
        { chrom1 := "chr1", start1 := 30, end1 := 40,
          chrom2 := "chr1", start2 := 6150, end2 := 6300, count := 2 },
        { chrom1 := "chr1", start1 := 50, end1 := 60,
          chrom2 := "chr1", start2 := 6005, end2 := 6060, count := 0 } ] ∧
    clusterLog (secondPassInput secondPass_input) = [(0, [1, 2, 3])] ∧
    overlaps
      { chrom1 := "chr1", start1 := 0, end1 := 100,
        chrom2 := "chr1", start2 := 6000, end2 := 6060, count := 4 }
      { chrom1 := "chr1", start1 := 30, end1 := 40,
        chrom2 := "chr1", start2 := 6150, end2 := 6300, count := 2 } = false ∧
    cluster (secondPassInput secondPass_input) =
      [ { chrom1 := "chr1", start1 := 0, end1 := 100,
          chrom2 := "chr1", start2 := 6000, end2 := 6300, count := 8 },
        { chrom1 := "chr1", start1 := 10, end1 := 20,
          chrom2 := "chr1", start2 := 6050, end2 := 6200, count := 0 },
        { chrom1 := "chr1", start1 := 30, end1 := 40,
          chrom2 := "chr1", start2 := 6150, end2 := 6300, count := 0 },
        { chrom1 := "chr1", start1 := 50, end1 := 60,
          chrom2 := "chr1", start2 := 6005, end2 := 6060, count := 0 } ] := by
  decide

/-- C18: for every record sequence, sorted or not, the clustering pass keeps the sum of all
counts; a merge gives the seed the sum of the two counts and the candidate the count 0; and
in every merge the candidate index is larger than the seed index, so the two records are
distinct. -/
theorem C18_pass_conserves_count (pets : List PET) :
    totalCount (cluster pets) = totalCount pets ∧
    (∀ seed can : PET,
      (absorb seed can).count = seed.count + can.count ∧ (zeroed can).count = 0) ∧
    (clusterLoopLog pets.length 0 pets []).1 = cluster pets ∧
    (∀ (i : Nat) (js : List Nat), (i, js) ∈ clusterLog pets →
      ∀ j ∈ js, i < j ∧ j < pets.length) := by
  refine ⟨?_, ?_, ?_, ?_⟩
  · rw [cluster_eq_clusterList]
    exact clusterList_totalCount pets
  · intro seed can
    exact ⟨rfl, rfl⟩
  · rw [clusterLoopLog_eq]
  · intro i js hmem j hj
    obtain ⟨pre, post, hsplit⟩ := List.append_of_mem hj
    obtain ⟨hlt, _, x, _, hx, _⟩ := clusterLog_sound pets i js hmem pre j post hsplit
    obtain ⟨hlen, _⟩ := List.getElem?_eq_some.mp hx
    exact ⟨hlt, hlen⟩

/-! ## The 32-bit program: refinement to list recursion -/

theorem preprocessLoop32_spec (cfg : Config) :
    ∀ (fuel : Nat) (pre rest : List PET), rest.length ≤ fuel →
      preprocessLoop32 cfg fuel pre.length (pre ++ rest) = pre ++ rest.map (preprocessBody32 cfg) := by
  intro fuel
  induction fuel with
  | zero =>
    intro pre rest h
    have : rest = [] := List.length_eq_zero.mp (Nat.le_zero.mp h)
    subst this
    simp [preprocessLoop32]
  | succ n ih =>
    intro pre rest h
    cases rest with
    | nil => simp [preprocessLoop32]
    | cons x xs =>
      have hlen : xs.length ≤ n := by simpa using h
      have step := ih (pre ++ [preprocessBody32 cfg x]) xs hlen
      simp only [List.length_append, List.length_singleton, List.append_assoc,
        List.singleton_append] at step
      simp only [preprocessLoop32, getElem?_at_length, set_at_length, List.map_cons]
      exact step

theorem preprocess32_eq_map (cfg : Config) (pets : List PET) :
    preprocess32 cfg pets = pets.map (preprocessBody32 cfg) := by
  have h := preprocessLoop32_spec cfg pets.length [] pets (Nat.le_refl _)
  simpa [preprocess32] using h

theorem scan32_length (l : List PET) : ∀ c : PET, (scan32 c l).2.length = l.length := by
  induction l with
  | nil => intro c; simp [scan32]
  | cons x xs ih =>
    intro c
    unfold scan32
    split
    · rfl
    · split <;> simp [ih]

theorem scanLoop32_spec :
    ∀ (rest : List PET) (fuel : Nat) (pre : List PET) (c : PET) (mid : List PET),
      rest.length ≤ fuel →
      scanLoop32 fuel pre.length (pre.length + 1 + mid.length) (pre ++ c :: (mid ++ rest)) =
        pre ++ (scan32 c rest).1 :: (mid ++ (scan32 c rest).2) := by
  intro rest
  induction rest with
  | nil =>
    intro fuel pre c mid _
    have hj : (pre ++ c :: (mid ++ []))[pre.length + 1 + mid.length]? = none := by
      apply List.getElem?_eq_none
      simp
      omega
    cases fuel with
    | zero => simp [scanLoop32, scan32]
    | succ n =>
      simp only [scanLoop32, hj, scan32]
      split <;> simp_all
  | cons can rest ih =>
    intro fuel pre c mid h
    cases fuel with
    | zero => simp at h
    | succ n =>
      have hlen : rest.length ≤ n := by simpa using h
      have hi : (pre ++ c :: (mid ++ can :: rest))[pre.length]? = some c :=
        getElem?_at_length pre c _
      have hj : (pre ++ c :: (mid ++ can :: rest))[pre.length + 1 + mid.length]? = some can := by
        have := getElem?_at (pre ++ c :: mid) can rest (pre.length + 1 + mid.length)
          (by simp; omega)
        simpa only [List.append_assoc, List.cons_append] using this
      simp only [scanLoop32, hi, hj, scan32]
      by_cases hb : pruneBreak c can = true
      · simp [hb]
      · simp only [hb, if_false, Bool.false_eq_true]
        by_cases ho : overlaps c can = true
        · simp only [ho, if_true]
          have hset : ((pre ++ c :: (mid ++ can :: rest)).set pre.length (absorb32 c can)).set
              (pre.length + 1 + mid.length) (zeroed can) =
              pre ++ absorb32 c can :: ((mid ++ [zeroed can]) ++ rest) := by
            rw [set_at_length]
            have := set_at (pre ++ absorb32 c can :: mid) can (zeroed can) rest
              (pre.length + 1 + mid.length) (by simp; omega)
            simpa only [List.append_assoc, List.cons_append, List.singleton_append,
              List.nil_append] using this
          rw [hset]
          have step := ih n pre (absorb32 c can) (mid ++ [zeroed can]) hlen
          simp only [List.length_append, List.length_singleton] at step
          rw [show pre.length + 1 + mid.length + 1 = pre.length + 1 + (mid.length + 1) by omega,
            step]
          simp
        · simp only [ho, if_false, Bool.false_eq_true]
          have step := ih n pre c (mid ++ [can]) hlen
          simp only [List.length_append, List.length_singleton, List.append_assoc,
            List.singleton_append] at step
          rw [show pre.length + 1 + mid.length + 1 = pre.length + 1 + (mid.length + 1) by omega,
            step]

theorem clusterLoop32_spec :
    ∀ (fuel : Nat) (pre rest : List PET), rest.length ≤ fuel →
      clusterLoop32 fuel pre.length (pre ++ rest) = pre ++ clusterList32 rest := by
  intro fuel
  induction fuel with
  | zero =>
    intro pre rest h
    have : rest = [] := List.length_eq_zero.mp (Nat.le_zero.mp h)
    subst this
    simp [clusterLoop32, clusterList32]
  | succ n ih =>
    intro pre rest h
    cases rest with
    | nil => simp [clusterLoop32, clusterList32]
    | cons x xs =>
      have hlen : xs.length ≤ n := by simpa using h
      simp only [clusterLoop32, getElem?_at_length]
      rw [clusterList32]
      by_cases hc : x.count = 0
      · simp only [hc, if_true]
        have step := ih (pre ++ [x]) xs hlen
        simpa using step
      · simp only [hc, if_false]
        have hs := scanLoop32_spec xs (pre ++ x :: xs).length pre x [] (by simp; omega)
        simp only [List.length_nil, Nat.add_zero, List.nil_append] at hs
        rw [hs]
        have step := ih (pre ++ [(scan32 x xs).1]) (scan32 x xs).2 (by rw [scan32_length]; exact hlen)
        simpa using step

theorem cluster32_eq_clusterList32 (pets : List PET) : cluster32 pets = clusterList32 pets := by
  have h := clusterLoop32_spec pets.length [] pets (Nat.le_refl _)
  simpa [cluster32] using h

theorem scan32_nil (c : PET) : scan32 c [] = (c, []) := by
  simp [scan32]

theorem scan32_cons_break (c can : PET) (rest : List PET) (h : pruneBreak c can = true) :
    scan32 c (can :: rest) = (c, can :: rest) := by
  simp [scan32, h]

theorem scan32_cons_merge (c can : PET) (rest : List PET) (hb : pruneBreak c can = false)
    (ho : overlaps c can = true) :
    scan32 c (can :: rest) =
      ((scan32 (absorb32 c can) rest).1, zeroed can :: (scan32 (absorb32 c can) rest).2) := by
  simp [scan32, hb, ho]

theorem scan32_cons_skip (c can : PET) (rest : List PET) (hb : pruneBreak c can = false)
    (ho : overlaps c can = false) :
    scan32 c (can :: rest) = ((scan32 c rest).1, can :: (scan32 c rest).2) := by
  simp [scan32, hb, ho]

theorem clusterList32_nil : clusterList32 [] = [] := by
  rw [clusterList32]

theorem clusterList32_cons_zero (p : PET) (rest : List PET) (h : p.count = 0) :
    clusterList32 (p :: rest) = p :: clusterList32 rest := by
  rw [clusterList32, if_pos h]

theorem clusterList32_cons_seed (p : PET) (rest : List PET) (h : p.count ≠ 0) :
    clusterList32 (p :: rest) = (scan32 p rest).1 :: clusterList32 (scan32 p rest).2 := by
  rw [clusterList32, if_neg h]

/-! ## The 32-bit program and the program on mathematical integers -/

theorem wrap32_of_inInt32 {x : Int} (h : inInt32 x) : wrap32 x = x := by
  unfold inInt32 at h
  unfold wrap32
  omega

theorem inInt32_wrap32 (x : Int) : inInt32 (wrap32 x) := by
  unfold inInt32 wrap32
  omega

/-- The 32-bit loop body in closed form. -/
theorem preprocessBody32_eq (cfg : Config) (p : PET) :
    preprocessBody32 cfg p =
      { chrom1 := p.chrom1
        start1 := max 0 (wrap32 (p.start1 - cfg.extension))
        end1 := wrap32 (p.end1 + cfg.extension)
        chrom2 := p.chrom2
        start2 := max 0 (wrap32 (p.start2 - cfg.extension))
        end2 := wrap32 (p.end2 + cfg.extension)
        count := if passesFilters32 cfg p = true then p.count else 0 } := by
  obtain ⟨c1, s1, e1, c2, s2, e2, n⟩ := p
  simp only [preprocessBody32, passesFilters32, PET.mk.injEq, true_and, and_true]
  by_cases hv : c1 ≠ c2 ∨ s1 > e1 ∨ s2 > e2
  · have hf : (decide (c1 = c2) && decide (s1 ≤ e1) && decide (s2 ≤ e2) &&
        decide (wrap32 (s2 - e1) ≥ cfg.self_ligation) && decide (n ≥ cfg.pet_cutoff)) = false := by
      rcases hv with h | h | h
      · simp [h]
      · simp [not_le.mpr h]
      · simp [not_le.mpr h]
    rw [if_pos hv, hf]
    split_ifs <;> simp_all
  · rw [if_neg hv]
    have hv1 : c1 = c2 := by
      by_contra h
      exact hv (Or.inl h)
    have hv2 : s1 ≤ e1 := by
      by_contra h
      exact hv (Or.inr (Or.inl (not_le.mp h)))
    have hv3 : s2 ≤ e2 := by
      by_contra h
      exact hv (Or.inr (Or.inr (not_le.mp h)))
    by_cases hs : wrap32 (s2 - e1) < cfg.self_ligation
    · rw [if_pos hs]
      have hf : (decide (c1 = c2) && decide (s1 ≤ e1) && decide (s2 ≤ e2) &&
          decide (wrap32 (s2 - e1) ≥ cfg.self_ligation) && decide (n ≥ cfg.pet_cutoff)) = false := by
        simp [not_le.mpr hs]
      rw [hf]
      split_ifs <;> simp_all
    · rw [if_neg hs]
      by_cases hc : n < cfg.pet_cutoff
      · rw [if_pos hc]
        have hf : (decide (c1 = c2) && decide (s1 ≤ e1) && decide (s2 ≤ e2) &&
            decide (wrap32 (s2 - e1) ≥ cfg.self_ligation) && decide (n ≥ cfg.pet_cutoff)) = false := by
          simp [not_le.mpr hc]
        rw [hf]
        simp
      · rw [if_neg hc]
        have hf : (decide (c1 = c2) && decide (s1 ≤ e1) && decide (s2 ≤ e2) &&
            decide (wrap32 (s2 - e1) ≥ cfg.self_ligation) && decide (n ≥ cfg.pet_cutoff)) = true := by
          simp [hv1, hv2, hv3, not_lt.mp hs, not_lt.mp hc]
        rw [hf]
        simp

theorem passesFilters32_iff (cfg : Config) (p : PET) :
    passesFilters32 cfg p = true ↔
      (p.chrom1 = p.chrom2 ∧ p.start1 ≤ p.end1 ∧ p.start2 ≤ p.end2 ∧
        wrap32 (p.start2 - p.end1) ≥ cfg.self_ligation ∧ p.count ≥ cfg.pet_cutoff) := by
  simp [passesFilters32, and_assoc]

theorem passesFilters32_eq {cfg : Config} {p : PET} (h : inInt32 (p.start2 - p.end1)) :
    passesFilters32 cfg p = passesFilters cfg p := by
  unfold passesFilters32 passesFilters
  rw [wrap32_of_inInt32 h]

/-- Without overflow the 32-bit loop body is the loop body on mathematical integers. -/
theorem preprocessBody32_eq_preprocessBody {cfg : Config} {p : PET} (h : noOverflow cfg p) :
    preprocessBody32 cfg p = preprocessBody cfg p := by
  obtain ⟨h1, h2, h3, h4, h5⟩ := h
  rw [preprocessBody32_eq, preprocessBody_eq, passesFilters32_eq h1, wrap32_of_inInt32 h2,
    wrap32_of_inInt32 h3, wrap32_of_inInt32 h4, wrap32_of_inInt32 h5]

/-- Without overflow the 32-bit preprocessing stage is the stage on mathematical integers. -/
theorem preprocess32_eq_preprocess (cfg : Config) (pets : List PET)
    (h : ∀ p ∈ pets, noOverflow cfg p) : preprocess32 cfg pets = preprocess cfg pets := by
  rw [preprocess32_eq_map, preprocess_eq_map]
  exact List.map_congr_left (fun p hp => preprocessBody32_eq_preprocessBody (h p hp))

theorem absorb32_eq_absorb {c x : PET} (h : inInt32 (c.count + x.count)) :
    absorb32 c x = absorb c x := by
  simp only [absorb32, absorb]
  rw [wrap32_of_inInt32 h]

theorem totalCount_nonneg (l : List PET) (h : ∀ p ∈ l, 0 ≤ p.count) : 0 ≤ totalCount l := by
  induction l with
  | nil => simp [totalCount]
  | cons x xs ih =>
    rw [totalCount_cons]
    have h1 := h x (List.mem_cons_self _ _)
    have h2 := ih (fun p hp => h p (List.mem_cons_of_mem _ hp))
    omega

theorem totalCount_filter_le (f : PET → Bool) (l : List PET) (h : ∀ p ∈ l, 0 ≤ p.count) :
    totalCount (l.filter f) ≤ totalCount l := by
  have hs := totalCount_filter_split f l
  have hn : 0 ≤ totalCount (l.filter (fun p => !f p)) :=
    totalCount_nonneg _ (fun p hp => h p (List.mem_of_mem_filter hp))
  omega

/-- A scan keeps the counts non-negative. -/
theorem scan_counts_nonneg (rest : List PET) :
    ∀ c : PET, 0 ≤ c.count → (∀ x ∈ rest, 0 ≤ x.count) →
      0 ≤ (scan c rest).1.count ∧ ∀ y ∈ (scan c rest).2, 0 ≤ y.count := by
  induction rest with
  | nil =>
    intro c hc _
    rw [scan_nil]
    exact ⟨hc, fun y hy => by simp at hy⟩
  | cons x xs ih =>
    intro c hc hrest
    have hx := hrest x (List.mem_cons_self _ _)
    have hxs : ∀ y ∈ xs, 0 ≤ y.count := fun y hy => hrest y (List.mem_cons_of_mem _ hy)
    by_cases hb : pruneBreak c x = true
    · rw [scan_cons_break c x xs hb]
      exact ⟨hc, hrest⟩
    · simp only [Bool.not_eq_true] at hb
      by_cases ho : overlaps c x = true
      · rw [scan_cons_merge c x xs hb ho]
        have hc' : 0 ≤ (absorb c x).count := by
          simp only [absorb]
          omega
        obtain ⟨h1, h2⟩ := ih (absorb c x) hc' hxs
        refine ⟨h1, ?_⟩
        intro y hy
        rcases List.mem_cons.mp hy with rfl | hy'
        · simp [zeroed]
        · exact h2 y hy'
      · simp only [Bool.not_eq_true] at ho
        rw [scan_cons_skip c x xs hb ho]
        obtain ⟨h1, h2⟩ := ih c hc hxs
        refine ⟨h1, ?_⟩
        intro y hy
        rcases List.mem_cons.mp hy with rfl | hy'
        · exact hx
        · exact h2 y hy'

/-- When the counts are non-negative and their sum is a 32-bit value, the 32-bit scan is the
scan on mathematical integers. -/
theorem scan32_eq_scan (rest : List PET) :
    ∀ c : PET, 0 ≤ c.count → (∀ x ∈ rest, 0 ≤ x.count) →
      c.count + totalCount rest ≤ 2147483647 → scan32 c rest = scan c rest := by
  induction rest with
  | nil =>
    intro c _ _ _
    rw [scan32_nil, scan_nil]
  | cons x xs ih =>
    intro c hc hrest hsum
    have hx := hrest x (List.mem_cons_self _ _)
    have hxs : ∀ y ∈ xs, 0 ≤ y.count := fun y hy => hrest y (List.mem_cons_of_mem _ hy)
    have hxsn := totalCount_nonneg xs hxs
    rw [totalCount_cons] at hsum
    by_cases hb : pruneBreak c x = true
    · rw [scan32_cons_break c x xs hb, scan_cons_break c x xs hb]
    · simp only [Bool.not_eq_true] at hb
      by_cases ho : overlaps c x = true
      · have hin : inInt32 (c.count + x.count) := by
          unfold inInt32
          omega
        have hc' : 0 ≤ (absorb c x).count := by
          simp only [absorb]
          omega
        have hsum' : (absorb c x).count + totalCount xs ≤ 2147483647 := by
          simp only [absorb]
          omega
        rw [scan32_cons_merge c x xs hb ho, scan_cons_merge c x xs hb ho,
          absorb32_eq_absorb hin, ih (absorb c x) hc' hxs hsum']
      · simp only [Bool.not_eq_true] at ho
        rw [scan32_cons_skip c x xs hb ho, scan_cons_skip c x xs hb ho,
          ih c hc hxs (by omega)]

theorem clusterList32_eq_clusterList_aux :
    ∀ (n : Nat) (l : List PET), l.length = n → (∀ p ∈ l, 0 ≤ p.count) →
      totalCount l ≤ 2147483647 → clusterList32 l = clusterList l := by
  intro n
  induction n with
  | zero =>
    intro l hl _ _
    have : l = [] := List.length_eq_zero.mp hl
    subst this
    rw [clusterList32_nil, clusterList_nil]
  | succ n ih =>
    intro l hl hnn hsum
    cases l with
    | nil => simp at hl
    | cons p rest =>
      have hlen : rest.length = n := by simpa using hl
      have hp := hnn p (List.mem_cons_self _ _)
      have hrest : ∀ y ∈ rest, 0 ≤ y.count := fun y hy => hnn y (List.mem_cons_of_mem _ hy)
      rw [totalCount_cons] at hsum
      by_cases hc : p.count = 0
      · rw [clusterList32_cons_zero p rest hc, clusterList_cons_zero p rest hc,
          ih rest hlen hrest (by omega)]
      · obtain ⟨h1, h2⟩ := scan_counts_nonneg rest p hp hrest
        have htot := scan_totalCount rest p
        rw [clusterList32_cons_seed p rest hc, clusterList_cons_seed p rest hc,
          scan32_eq_scan rest p hp hrest hsum,
          ih (scan p rest).2 (by rw [scan_length]; exact hlen) h2 (by omega)]

/-- When the counts are non-negative and their sum is a 32-bit value, the 32-bit clustering
stage is the stage on mathematical integers. -/
theorem cluster32_eq_cluster (pets : List PET) (hnn : ∀ p ∈ pets, 0 ≤ p.count)
    (hsum : totalCount pets ≤ 2147483647) : cluster32 pets = cluster pets := by
  rw [cluster32_eq_clusterList32, cluster_eq_clusterList]
  exact clusterList32_eq_clusterList_aux pets.length pets rfl hnn hsum

theorem outputLoop32_spec (cc : Int) :
    ∀ (fuel : Nat) (pre rest : List PET) (rows : List String) (c : Nat), rest.length ≤ fuel →
      (∀ p ∈ rest, p.count ≥ cc → sprintfBytes32 p ≤ buffSize) →
      outputLoop32 cc fuel pre.length { pets := pre ++ rest, rows := rows, c := c } =
        some { pets := pre ++ rest, rows := rows ++ (emitted cc rest).map formatRow32,
               c := c + (emitted cc rest).length } := by
  intro fuel
  induction fuel with
  | zero =>
    intro pre rest rows c h _
    have : rest = [] := List.length_eq_zero.mp (Nat.le_zero.mp h)
    subst this
    simp [outputLoop32, emitted]
  | succ n ih =>
    intro pre rest rows c h hfit
    cases rest with
    | nil => simp [outputLoop32, emitted]
    | cons x xs =>
      have hlen : xs.length ≤ n := by simpa using h
      have hfit' : ∀ p ∈ xs, p.count ≥ cc → sprintfBytes32 p ≤ buffSize :=
        fun p hp => hfit p (List.mem_cons_of_mem _ hp)
      simp only [outputLoop32, getElem?_at_length]
      by_cases hc : x.count ≥ cc
      · have hx := hfit x (List.mem_cons_self _ _) hc
        simp only [hc, hx, if_true]
        have step := ih (pre ++ [x]) xs (rows ++ [formatRow32 x]) (c + 1) hlen hfit'
        simp only [List.length_append, List.length_singleton, List.append_assoc,
          List.singleton_append] at step
        rw [step]
        simp [emitted, hc]
        omega
      · simp only [hc, if_false]
        have step := ih (pre ++ [x]) xs rows c hlen hfit'
        simp only [List.length_append, List.length_singleton, List.append_assoc,
          List.singleton_append] at step
        rw [step]
        simp [emitted, hc]

/-- When every selected row fits into `buff`, the output loop writes the selected records in
order and counts them. -/
theorem select32_eq (cc : Int) (pets : List PET)
    (hfit : ∀ p ∈ pets, p.count ≥ cc → sprintfBytes32 p ≤ buffSize) :
    select32 cc pets =
      some { pets := pets, rows := (emitted cc pets).map formatRow32,
             c := (emitted cc pets).length } := by
  have h := outputLoop32_spec cc pets.length [] pets [] 0 (Nat.le_refl _) hfit
  simpa [select32] using h

/-- When every selected row fits into `buff` and no name has a zero byte, the output stage
with `buff` writes what the output stage on unbounded rows writes. -/
theorem select32_eq_select (cc : Int) (pets : List PET)
    (hfit : ∀ p ∈ pets, p.count ≥ cc → sprintfBytes32 p ≤ buffSize)
    (hname : ∀ p ∈ pets, cString p.chrom1 = p.chrom1 ∧ cString p.chrom2 = p.chrom2) :
    select32 cc pets = some (select cc pets) := by
  rw [select32_eq cc pets hfit, select_eq]
  have hrows : (emitted cc pets).map formatRow32 = (emitted cc pets).map formatRow := by
    apply List.map_congr_left
    intro p hp
    obtain ⟨h1, h2⟩ := hname p (List.mem_of_mem_filter hp)
    simp only [formatRow32, formatRow, h1, h2]
  rw [hrows]

/-! ## The claims settled on the 32-bit program -/

/-- C1 (amended): with `pet_cutoff ≥ 1`, `extension ≥ 0` and `cluster_cutoff ≥ 1`, take two
records `p`, `q` on one chromosome that both pass the filters, let `r1`, `r2` be the order the
sort gives them, and assume that after extension the start or the end of each anchor of `r2`
lies in the closed interval of the same anchor of `r1`. Assume further that no subtraction or
addition of the preprocessing of `p` and `q` overflows 32 bits and that the sum of the two
counts is a 32-bit value. Then the final sequence of the program is the cluster (union of the
extended anchors, count the sum of the two counts, which is not zero) followed by the second
record with count zero; and when the sum reaches `cluster_cutoff` and the row of the cluster
fits into the 64 bytes of `buff`, the cluster is the only row written. -/
theorem C1_two_records_int32 (cfg : Config) (p q r1 r2 : PET)
    (hpc : 1 ≤ cfg.pet_cutoff) (hext : 0 ≤ cfg.extension) (hcc : 1 ≤ cfg.cluster_cutoff)
    (hchrom : p.chrom1 = q.chrom1)
    (hp : passesFilters cfg p = true) (hq : passesFilters cfg q = true)
    (hs : sortPETs [p, q] = [r1, r2])
    (h1 : ((preprocessBody cfg r1).start1 ≤ (preprocessBody cfg r2).start1 ∧
            (preprocessBody cfg r2).start1 ≤ (preprocessBody cfg r1).end1) ∨
          ((preprocessBody cfg r1).start1 ≤ (preprocessBody cfg r2).end1 ∧
            (preprocessBody cfg r2).end1 ≤ (preprocessBody cfg r1).end1))
    (h2 : ((preprocessBody cfg r1).start2 ≤ (preprocessBody cfg r2).start2 ∧
            (preprocessBody cfg r2).start2 ≤ (preprocessBody cfg r1).end2) ∨
          ((preprocessBody cfg r1).start2 ≤ (preprocessBody cfg r2).end2 ∧
            (preprocessBody cfg r2).end2 ≤ (preprocessBody cfg r1).end2))
    (hnp : noOverflow cfg p) (hnq : noOverflow cfg q) (hsum : inInt32 (p.count + q.count)) :
    finalSequence32 cfg [p, q] =
      [ { chrom1 := r1.chrom1
          start1 := min (max 0 (r1.start1 - cfg.extension)) (max 0 (r2.start1 - cfg.extension))
          end1 := max (r1.end1 + cfg.extension) (r2.end1 + cfg.extension)
          chrom2 := r1.chrom2
          start2 := min (max 0 (r1.start2 - cfg.extension)) (max 0 (r2.start2 - cfg.extension))
          end2 := max (r1.end2 + cfg.extension) (r2.end2 + cfg.extension)
          count := p.count + q.count },
        { chrom1 := r2.chrom1
          start1 := max 0 (r2.start1 - cfg.extension)
          end1 := r2.end1 + cfg.extension
          chrom2 := r2.chrom2
          start2 := max 0 (r2.start2 - cfg.extension)
          end2 := r2.end2 + cfg.extension
          count := 0 } ] ∧
    p.count + q.count ≠ 0 ∧
    (p.count + q.count ≥ cfg.cluster_cutoff →
      sprintfBytes32
        { chrom1 := r1.chrom1
          start1 := min (max 0 (r1.start1 - cfg.extension)) (max 0 (r2.start1 - cfg.extension))
          end1 := max (r1.end1 + cfg.extension) (r2.end1 + cfg.extension)
          chrom2 := r1.chrom2
          start2 := min (max 0 (r1.start2 - cfg.extension)) (max 0 (r2.start2 - cfg.extension))
          end2 := max (r1.end2 + cfg.extension) (r2.end2 + cfg.extension)
          count := p.count + q.count } ≤ buffSize →
      (run32 cfg [p, q]).map OutState.rows = some [formatRow32
        { chrom1 := r1.chrom1
          start1 := min (max 0 (r1.start1 - cfg.extension)) (max 0 (r2.start1 - cfg.extension))
          end1 := max (r1.end1 + cfg.extension) (r2.end1 + cfg.extension)
          chrom2 := r1.chrom2
          start2 := min (max 0 (r1.start2 - cfg.extension)) (max 0 (r2.start2 - cfg.extension))
          end2 := max (r1.end2 + cfg.extension) (r2.end2 + cfg.extension)
          count := p.count + q.count }] ∧
      (run32 cfg [p, q]).map OutState.c = some 1) := by
  obtain ⟨hf, hne, _⟩ := two_overlapping_records_exact cfg p q r1 r2 hpc hext hcc hchrom hp hq
    hs h1 h2
  have hperm : (sortPETs [p, q]).Perm [p, q] := sortPETs_perm [p, q]
  have hmem : ∀ r ∈ sortPETs [p, q], r = p ∨ r = q := by
    intro r hr
    have hr' : r ∈ [p, q] := hperm.subset hr
    simpa using hr'
  obtain ⟨_, _, _, _, hp5⟩ := (passesFilters_iff cfg p).mp hp
  obtain ⟨_, _, _, _, hq5⟩ := (passesFilters_iff cfg q).mp hq
  have hno : ∀ r ∈ sortPETs [p, q], noOverflow cfg r := by
    intro r hr
    rcases hmem r hr with rfl | rfl
    · exact hnp
    · exact hnq
  have hcount : ∀ r ∈ sortPETs [p, q], 0 ≤ r.count := by
    intro r hr
    rcases hmem r hr with rfl | rfl <;> omega
  have hnn : ∀ r ∈ preprocess cfg (sortPETs [p, q]), 0 ≤ r.count := by
    intro r hr
    rw [preprocess_eq_map] at hr
    obtain ⟨x, hx, rfl⟩ := List.mem_map.mp hr
    have := hcount x hx
    rw [preprocessBody_eq]
    simp only
    split <;> omega
  have htot : totalCount (preprocess cfg (sortPETs [p, q])) ≤ 2147483647 := by
    rw [totalCount_preprocess]
    have h1 := totalCount_filter_le (fun r => passesFilters cfg r) (sortPETs [p, q]) hcount
    have h2 : totalCount (sortPETs [p, q]) = p.count + q.count := by
      rw [totalCount_perm hperm]
      simp [totalCount]
    unfold inInt32 at hsum
    omega
  have hfin : finalSequence32 cfg [p, q] = finalSequence cfg [p, q] := by
    unfold finalSequence32 finalSequence
    rw [preprocess32_eq_preprocess cfg _ hno, cluster32_eq_cluster _ hnn htot]
  refine ⟨hfin.trans hf, hne, ?_⟩
  intro hge hfit
  have hdead : ¬ (0 : Int) ≥ cfg.cluster_cutoff := by omega
  unfold run32
  rw [hfin, hf]
  rw [select32_eq]
  · simp [emitted, hge, hdead]
  · intro x hx hxc
    simp only [List.mem_cons, List.mem_singleton, List.not_mem_nil, or_false] at hx
    rcases hx with rfl | rfl
    · exact hfit
    · exact absurd hxc hdead

/-- C1, Scenario A: the program merges the two records of the scenario and writes the single
row `chrom 100 200 chrom 5000 5150 8`. -/
theorem C1_scenarioA_int32 :
    finalSequence32 scenarioA_cfg [scenarioA_p, scenarioA_q] =
      [ { chrom1 := "chrom", start1 := 100, end1 := 200,
          chrom2 := "chrom", start2 := 5000, end2 := 5150, count := 8 },
        { chrom1 := "chrom", start1 := 100, end1 := 200,
          chrom2 := "chrom", start2 := 5050, end2 := 5150, count := 0 } ] ∧
    (run32 scenarioA_cfg [scenarioA_p, scenarioA_q]).map OutState.rows =
      some ["chrom\t100\t200\tchrom\t5000\t5150\t8\n"] ∧
    (run32 scenarioA_cfg [scenarioA_p, scenarioA_q]).map OutState.c = some 1 := by
  obtain ⟨hf, _, hrun⟩ := C1_two_records_int32 scenarioA_cfg scenarioA_p scenarioA_q
    scenarioA_p scenarioA_q (by decide) (by decide) (by decide) rfl (by decide) (by decide)
    (by decide) (by decide) (by decide) (by decide) (by decide) (by decide)
  have hr := hrun (by decide) (by decide)
  exact ⟨hf.trans (by decide), hr.1.trans (by decide), hr.2⟩

/-- C1 as stated fails in four ways, each with every premise of the claim in force.
With `cluster_cutoff = 0` the absorbed record of Scenario A is written too. With the counts
2147483647 and 2 the merged count is -2147483647 and no row is written. On a contig with a
22-character name the row of the cluster takes 67 bytes and overflows `buff`. With
`extension = 500` and second anchors that end at 2147483647 the extended ends wrap to
-2147483149 and the two records are not merged. -/
theorem C1_counterexample_int32 :
    ((run32 { scenarioA_cfg with cluster_cutoff := 0 } [scenarioA_p, scenarioA_q]).map
        OutState.rows =
      some ["chrom\t100\t200\tchrom\t5000\t5150\t8\n",
            "chrom\t100\t200\tchrom\t5050\t5150\t0\n"]) ∧
    (passesFilters scenarioA_cfg bigCount_p = true ∧
      passesFilters scenarioA_cfg bigCount_q = true ∧
      sortPETs [bigCount_p, bigCount_q] = [bigCount_p, bigCount_q] ∧
      overlaps (preprocessBody scenarioA_cfg bigCount_p)
        (preprocessBody scenarioA_cfg bigCount_q) = true ∧
      bigCount_p.count + bigCount_q.count ≥ scenarioA_cfg.cluster_cutoff ∧
      (finalSequence32 scenarioA_cfg [bigCount_p, bigCount_q]).map PET.count =
        [-2147483647, 0] ∧
      (run32 scenarioA_cfg [bigCount_p, bigCount_q]).map OutState.rows = some []) ∧
    (passesFilters scenarioA_cfg longName_p = true ∧
      passesFilters scenarioA_cfg longName_q = true ∧
      sortPETs [longName_p, longName_q] = [longName_p, longName_q] ∧
      overlaps (preprocessBody scenarioA_cfg longName_p)
        (preprocessBody scenarioA_cfg longName_q) = true ∧
      (finalSequence32 scenarioA_cfg [longName_p, longName_q]).map sprintfBytes32 = [67, 67] ∧
      run32 scenarioA_cfg [longName_p, longName_q] = none) ∧
    (passesFilters wideEnd_cfg wideEnd_p = true ∧
      passesFilters wideEnd_cfg wideEnd_q = true ∧
      sortPETs [wideEnd_p, wideEnd_q] = [wideEnd_p, wideEnd_q] ∧
      overlaps (preprocessBody wideEnd_cfg wideEnd_p)
        (preprocessBody wideEnd_cfg wideEnd_q) = true ∧
      (finalSequence32 wideEnd_cfg [wideEnd_p, wideEnd_q]).map PET.end2 =
        [-2147483149, -2147483149] ∧
      (finalSequence32 wideEnd_cfg [wideEnd_p, wideEnd_q]).map PET.count = [3, 5]) := by
  decide

/-- C4 as stated fails: the record `chr1 -10 -2 chr1 2147483647 2147483647 5` is valid, its
count 5 reaches `pet_cutoff = 2`, and `start2 - end1 = 2147483649` is at least
`self_ligation = 8000`; in the program the difference wraps to -2147483647 and the count
becomes 0. -/
theorem C4_counterexample_int32 :
    (wideGap_p.chrom1 = wideGap_p.chrom2 ∧ wideGap_p.start1 ≤ wideGap_p.end1 ∧
      wideGap_p.start2 ≤ wideGap_p.end2 ∧
      wideGap_p.start2 - wideGap_p.end1 ≥ default_cfg.self_ligation ∧
      wideGap_p.count ≥ default_cfg.pet_cutoff) ∧
    wideGap_p.count = 5 ∧
    (inInt32 wideGap_p.start1 ∧ inInt32 wideGap_p.end1 ∧ inInt32 wideGap_p.start2 ∧
      inInt32 wideGap_p.end2 ∧ inInt32 wideGap_p.count) ∧
    wrap32 (wideGap_p.start2 - wideGap_p.end1) = -2147483647 ∧
    (preprocess32 default_cfg [wideGap_p]).map PET.count = [0] := by
  decide

/-- C4 (amended): for records whose `start2 - end1` is a 32-bit value, preprocessing keeps
every record in place and decides its count from that record alone: the count stays when the
record is valid, its anchors are at least `self_ligation` apart and its count reaches
`pet_cutoff`, all on the input coordinates, and becomes 0 otherwise. -/
theorem C4_preprocess_count_int32 (cfg : Config) (pets : List PET)
    (hgap : ∀ p ∈ pets, inInt32 (p.start2 - p.end1)) :
    (preprocess32 cfg pets).length = pets.length ∧
    (∀ i : Nat, (preprocess32 cfg pets)[i]? = (pets[i]?).map (preprocessBody32 cfg)) ∧
    (preprocess32 cfg pets).map PET.count = pets.map (fun p =>
      if p.chrom1 = p.chrom2 ∧ p.start1 ≤ p.end1 ∧ p.start2 ≤ p.end2 ∧
          p.start2 - p.end1 ≥ cfg.self_ligation ∧ p.count ≥ cfg.pet_cutoff
      then p.count else 0) := by
  have hbody : ∀ p ∈ pets, (preprocessBody32 cfg p).count =
      if p.chrom1 = p.chrom2 ∧ p.start1 ≤ p.end1 ∧ p.start2 ≤ p.end2 ∧
          p.start2 - p.end1 ≥ cfg.self_ligation ∧ p.count ≥ cfg.pet_cutoff
      then p.count else 0 := by
    intro p hp
    rw [preprocessBody32_eq, passesFilters32_eq (hgap p hp)]
    by_cases hpass : passesFilters cfg p = true
    · rw [if_pos ((passesFilters_iff cfg p).mp hpass)]
      simp [hpass]
    · rw [if_neg (fun h => hpass ((passesFilters_iff cfg p).mpr h))]
      simp [hpass]
  rw [preprocess32_eq_map]
  refine ⟨List.length_map _ _, fun i => List.getElem?_map _ _ _, ?_⟩
  rw [List.map_map]
  exact List.map_congr_left (fun p hp => hbody p hp)

/-- C4 at a concrete input: the two records of Scenario A keep their counts 3 and 5, and
the same records with `pet_cutoff = 6` get the count 0. -/
theorem C4_witness_int32 :
    (preprocess32 scenarioA_cfg [scenarioA_p, scenarioA_q]).map PET.count = [3, 5] ∧
    (preprocess32 scenarioB_cfg [scenarioA_p, scenarioA_q]).map PET.count = [0, 0] :=
  ⟨(C4_preprocess_count_int32 scenarioA_cfg [scenarioA_p, scenarioA_q]
      (by decide)).2.2.trans (by decide),
   (C4_preprocess_count_int32 scenarioB_cfg [scenarioA_p, scenarioA_q]
      (by decide)).2.2.trans (by decide)⟩

/-- C6 as stated fails: for the record `chr1 -10 -2 chr1 2147483647 2147483647 5` and
`extension = 500` the claim gives `end2 = 2147484147` and, the filters being passed on the
input coordinates, the count 5; the program gives `end2 = -2147483149` and the count 0. -/
theorem C6_counterexample_int32 :
    wideGap_p.end2 + default_cfg.extension = 2147484147 ∧
    passesFilters default_cfg wideGap_p = true ∧
    preprocess32 default_cfg [wideGap_p] =
      [ { chrom1 := "chr1", start1 := 0, end1 := 498,
          chrom2 := "chr1", start2 := 2147483147, end2 := -2147483149, count := 0 } ] := by
  decide

/-- C6 (amended): when no subtraction or addition of the preprocessing of a record overflows
32 bits, the extension is applied to every record, whatever the filters decided: after
preprocessing each record has `start1 = max 0 (start1 - extension)`,
`end1 = end1 + extension`, the same for anchor 2, unchanged chromosome names, and the count
that the three filters give on the input coordinates. -/
theorem C6_extension_int32 (cfg : Config) (pets : List PET)
    (h : ∀ p ∈ pets, noOverflow cfg p) :
    preprocess32 cfg pets = pets.map (fun p =>
      { chrom1 := p.chrom1
        start1 := max 0 (p.start1 - cfg.extension)
        end1 := p.end1 + cfg.extension
        chrom2 := p.chrom2
        start2 := max 0 (p.start2 - cfg.extension)
        end2 := p.end2 + cfg.extension
        count :=
          if p.chrom1 = p.chrom2 ∧ p.start1 ≤ p.end1 ∧ p.start2 ≤ p.end2 ∧
              p.start2 - p.end1 ≥ cfg.self_ligation ∧ p.count ≥ cfg.pet_cutoff
          then p.count else 0 }) := by
  rw [preprocess32_eq_preprocess cfg pets h, preprocess_closed]
  apply List.map_congr_left
  intro p _
  by_cases hp : passesFilters cfg p = true
  · rw [if_pos hp, if_pos ((passesFilters_iff cfg p).mp hp)]
  · rw [if_neg hp, if_neg (fun h => hp ((passesFilters_iff cfg p).mpr h))]

/-- C6 at a concrete input: under the default options (`extension = 500`,
`self_ligation = 8000`) the first record of Scenario A is widened to `[0,700]`,
`[4500,5600]` although its count is set to 0. -/
theorem C6_witness_int32 :
    preprocess32 default_cfg [scenarioA_p] =
      [ { chrom1 := "chrom", start1 := 0, end1 := 700,
          chrom2 := "chrom", start2 := 4500, end2 := 5600, count := 0 } ] :=
  (C6_extension_int32 default_cfg [scenarioA_p] (by decide)).trans (by decide)

/-- C10 as stated fails in two ways. The record on the contig `chr1_KI270706v1_random` is
selected under the default options and its row takes 77 bytes, so `sprintf` writes past the 64
bytes of `buff` and no output is defined. A name with a zero byte is printed up to that byte:
the record with the 5-character name `chr`, zero byte, `x` gives the row
`chr 100 200 chr 5000 5100 3`. -/
theorem C10_counterexample_int32 :
    (emitted default_cfg.cluster_cutoff (finalSequence32 default_cfg longName_input)).map
      sprintfBytes32 = [77] ∧
    select32 default_cfg.cluster_cutoff (finalSequence32 default_cfg longName_input) = none ∧
    zeroByte_p.chrom1.length = 5 ∧
    (select32 2 [zeroByte_p]).map OutState.rows = some ["chr\t100\t200\tchr\t5000\t5100\t3\n"] := by
  decide

/-- C10 (amended): when the row of every record with `count ≥ cluster_cutoff` fits, with its
terminating zero, into the 64 bytes of `buff`, the rows written are the records with
`count ≥ cluster_cutoff`, in sequence order, each as its seven fields separated by tabs and
ended by a newline, the two names printed up to their first zero byte; the reported number of
clusters is the number of rows; the sequence itself is unchanged. -/
theorem C10_output_selection_int32 (cluster_cutoff : Int) (pets : List PET)
    (hfit : ∀ p ∈ pets, p.count ≥ cluster_cutoff → sprintfBytes32 p ≤ buffSize) :
    (select32 cluster_cutoff pets).map OutState.rows =
      some ((pets.filter (fun p => decide (p.count ≥ cluster_cutoff))).map (fun p =>
        cString p.chrom1 ++ "\t" ++ toString p.start1 ++ "\t" ++ toString p.end1 ++ "\t" ++
        cString p.chrom2 ++ "\t" ++ toString p.start2 ++ "\t" ++ toString p.end2 ++ "\t" ++
        toString p.count ++ "\n")) ∧
    (select32 cluster_cutoff pets).map OutState.c =
      some (pets.filter (fun p => decide (p.count ≥ cluster_cutoff))).length ∧
    (select32 cluster_cutoff pets).map OutState.pets = some pets := by
  rw [select32_eq cluster_cutoff pets hfit]
  exact ⟨rfl, rfl, rfl⟩

/-- C10 at a concrete input: of the final sequence of Scenario A the one record with
`count ≥ 4` is written. -/
theorem C10_witness_int32 :
    (select32 4 (finalSequence32 scenarioA_cfg [scenarioA_p, scenarioA_q])).map OutState.rows =
      some ["chrom\t100\t200\tchrom\t5000\t5150\t8\n"] :=
  (C10_output_selection_int32 4 (finalSequence32 scenarioA_cfg [scenarioA_p, scenarioA_q])
    (by decide)).1.trans (by decide)

end ClusterPETs
